import Mathlib

/-!
Verification of the reference-resolution and response-normalization core of
`app.py` (Greek lexicon API).  The Python source is shallowly embedded:

* `parse_reference`   models `parse_reference` (app.py lines 63-80), whose
  regex is `^(\d?\s*[A-Za-z]+)\s+(\d+):(\d+)(?:-(\d+))?$` applied to the
  stripped input.  Since the character classes of adjacent regex pieces are
  disjoint (digits / whitespace / ASCII letters / literal punctuation), the
  greedy maximal-munch parser below matches the same strings as the regex.
* `fetchGreekText`    models `fetch_greek_text` (lines 83-156); the two HTTP
  transports are abstracted as functions from the request path to either an
  exception (`Except.error`) or a parsed JSON body, everything else (local
  table, request-path formatting, response-shape handling, fallthrough and
  the final 404) is embedded from the source.
* `json_loads`        models Python's strict `json.loads` on the JSON value
  grammar (objects, arrays, strings with escapes, numbers, literals);
  numbers are kept as their lexemes since no code under test inspects them.
* `normalize_verse` / `normalize_raw` model the fence-stripping and
  validation applied to the model output in `analyze_verse` (lines 193-217)
  and `analyze_raw` (lines 263-281).
* `extract_text`      models the recursive string extraction of the
  secondary provider (lines 138-151).

Machine characters are Lean `Char`s compared through `Char.toNat`.  The
character classes embed the ASCII fragment of Python's `str.strip`, `\s`,
`\d` and case-insensitive `[A-Za-z]`; on ASCII characters they coincide
with CPython exactly (whitespace is code points 9-13, 28-31 and 32; digits
48-57; letters 65-90 and 97-122, which `re.IGNORECASE` does not extend
within ASCII).  Python's Unicode classes are wider (`\s` also matches
U+00A0 etc., `\d` any Unicode decimal digit, `IGNORECASE` also U+0130,
U+0131, U+017F, U+212A), so the one statement asserting that the parser
*rejects* everything outside its grammar carries an explicit all-ASCII
hypothesis restricting it to the domain on which the model and the code
provably agree; all other statements concern acceptance or concrete
inputs, where the embedded fragment is exact.
-/

/-! ### Character classes and Python string helpers -/

/-- ASCII decimal digit: Python's regex `\d` restricted to ASCII (the
Unicode class also matches other decimal digits, e.g. Arabic-Indic). -/
def digitB (c : Char) : Bool := 48 ≤ c.toNat && c.toNat ≤ 57

/-- ASCII letter: Python's `[A-Za-z]`, which within ASCII is unchanged by
`re.IGNORECASE` (outside ASCII that flag also matches U+0130, U+0131,
U+017F and U+212A). -/
def alphaB (c : Char) : Bool := (65 ≤ c.toNat && c.toNat ≤ 90) || (97 ≤ c.toNat && c.toNat ≤ 122)

/-- An ASCII character; the domain on which the embedded character classes
coincide with CPython's Unicode regex classes. -/
def asciiB (c : Char) : Bool := c.toNat < 128

/-- ASCII whitespace recognised by Python's `str.strip` and regex `\s`:
space, tab, newline, carriage return, vertical tab, form feed, and the four
separator control characters 28-31 (`str.isspace` and `\s` accept them
too).  This is exactly Python's whitespace class restricted to ASCII;
Python additionally treats some non-ASCII code points (e.g. U+00A0) as
whitespace. -/
def wsB (c : Char) : Bool :=
  c.toNat = 32 || c.toNat = 9 || c.toNat = 10 || c.toNat = 13 || c.toNat = 11 ||
    c.toNat = 12 || c.toNat = 28 || c.toNat = 29 || c.toNat = 30 || c.toNat = 31

/-- JSON insignificant whitespace (what `json.loads` skips): space, tab,
newline, carriage return. -/
def jsonWsB (c : Char) : Bool := c.toNat = 32 || c.toNat = 9 || c.toNat = 10 || c.toNat = 13

theorem jsonWsB_imp_wsB {c : Char} (h : jsonWsB c = true) : wsB c = true := by
  simp [jsonWsB, wsB] at *; omega

theorem digitB_not_wsB {c : Char} (h : digitB c = true) : wsB c = false := by
  simp [digitB, wsB] at *; omega

theorem digitB_not_alphaB {c : Char} (h : digitB c = true) : alphaB c = false := by
  simp [digitB, alphaB] at *; omega

theorem alphaB_not_wsB {c : Char} (h : alphaB c = true) : wsB c = false := by
  simp [alphaB, wsB] at *; rcases h with h | h <;> omega

theorem alphaB_not_digitB {c : Char} (h : alphaB c = true) : digitB c = false := by
  simp [alphaB, digitB] at *; rcases h with h | h <;> omega

/-- Python `str.strip()`: drop the maximal whitespace suffix, then the
maximal whitespace prefix. -/
def pyStrip (l : List Char) : List Char := ((l.reverse.dropWhile wsB).reverse).dropWhile wsB

/-- Python `int()` on a string of decimal digits. -/
def digitsVal (s : String) : Nat := s.data.foldl (fun a c => a * 10 + (c.toNat - 48)) 0

/-! ### Generic `dropWhile` lemmas -/

theorem dropWhile_head_false (p : Char → Bool) :
    ∀ (l : List Char) (c : Char) (t : List Char), l.dropWhile p = c :: t → p c = false := by
  intro l
  induction l with
  | nil => intro c t h; simp at h
  | cons a l ih =>
    intro c t h
    rw [List.dropWhile_cons] at h
    by_cases hp : p a
    · rw [if_pos hp] at h; exact ih c t h
    · rw [if_neg hp] at h
      injection h with h1 _
      subst h1
      simpa using hp

theorem dropWhile_noop (p : Char → Bool) :
    ∀ (l : List Char), (∀ c t, l = c :: t → p c = false) → l.dropWhile p = l := by
  intro l h
  cases l with
  | nil => simp
  | cons a t =>
    have := h a t rfl
    rw [List.dropWhile_cons, if_neg (by simp [this])]

theorem dropWhile_append_all (p : Char → Bool) :
    ∀ (w t : List Char), (∀ a ∈ w, p a = true) → (w ++ t).dropWhile p = t.dropWhile p := by
  intro w t hw
  exact List.dropWhile_append_of_pos hw

theorem dropWhile_append_of_ne_nil (p : Char → Bool) :
    ∀ (xs ys c t), xs.dropWhile p = c :: t → (xs ++ ys).dropWhile p = c :: t ++ ys := by
  intro xs ys c t h
  rw [List.dropWhile_append, h]
  simp

theorem all_of_dropWhile_nil (p : Char → Bool) :
    ∀ (l : List Char), l.dropWhile p = [] → ∀ a ∈ l, p a = true := by
  intro l h
  exact List.dropWhile_eq_nil_iff.mp h

theorem dropWhile_eq_nil_of_all (p : Char → Bool) :
    ∀ (l : List Char), (∀ c ∈ l, p c = true) → l.dropWhile p = [] := by
  intro l h
  exact List.dropWhile_eq_nil_iff.mpr h

theorem dropWhile_sublist_mem (p : Char → Bool) :
    ∀ (l : List Char) (c : Char), c ∈ l.dropWhile p → c ∈ l := by
  intro l c h
  induction l with
  | nil => simp at h
  | cons a t ih =>
    rw [List.dropWhile_cons] at h
    by_cases hp : p a
    · rw [if_pos hp] at h
      exact List.mem_cons.mpr (Or.inr (ih h))
    · rw [if_neg hp] at h
      simpa using h

/-! ### `pyStrip` lemmas -/

/-- `pyStrip` of a value wrapped in whitespace on both sides. -/
theorem pyStrip_ws_wrap (p m s : List Char)
    (hp : ∀ a ∈ p, wsB a = true) (hs : ∀ a ∈ s, wsB a = true) :
    pyStrip (p ++ m ++ s) = pyStrip m := by
  unfold pyStrip
  have hrev : (p ++ m ++ s).reverse = s.reverse ++ (m.reverse ++ p.reverse) := by simp
  rw [hrev, dropWhile_append_all wsB s.reverse _ (fun a ha => hs a (List.mem_reverse.mp ha))]
  rcases hm : m.reverse.dropWhile wsB with _ | ⟨d, t⟩
  · have hall : ∀ a ∈ m.reverse, wsB a = true := all_of_dropWhile_nil wsB _ hm
    rw [dropWhile_append_all wsB m.reverse _ hall,
        dropWhile_eq_nil_of_all wsB p.reverse
          (fun a ha => hp a (List.mem_reverse.mp ha))]
  · rw [dropWhile_append_of_ne_nil wsB m.reverse p.reverse d t hm]
    have : ((d :: t) ++ p.reverse).reverse = p ++ (d :: t).reverse := by simp
    rw [this, dropWhile_append_all wsB p _ hp]

theorem pyStrip_head_not_ws (l : List Char) (c : Char) (t : List Char)
    (h : pyStrip l = c :: t) : wsB c = false :=
  dropWhile_head_false wsB _ c t h

theorem pyStrip_last_not_ws (l : List Char) (c : Char) (t : List Char)
    (h : (pyStrip l).reverse = c :: t) : wsB c = false := by
  unfold pyStrip at h
  rcases hm : l.reverse.dropWhile wsB with _ | ⟨d, s⟩
  · rw [hm] at h; simp at h
  · have hd : wsB d = false := dropWhile_head_false wsB _ d s hm
    rw [hm] at h
    have hds : (d :: s).reverse = s.reverse ++ [d] := by simp
    rw [hds] at h
    rcases hsub : s.reverse.dropWhile wsB with _ | ⟨e, u⟩
    · have hall : ∀ a ∈ s.reverse, wsB a = true := all_of_dropWhile_nil wsB _ hsub
      rw [dropWhile_append_all wsB s.reverse [d] hall] at h
      simp [List.dropWhile, hd] at h
      rcases h with ⟨h1, _⟩
      subst h1; exact hd
    · rw [dropWhile_append_of_ne_nil wsB s.reverse [d] e u hsub] at h
      have heq : ((e :: u) ++ [d]).reverse = d :: (e :: u).reverse := by simp
      rw [heq] at h
      injection h with h1 _
      exact h1 ▸ hd

/-- `pyStrip` leaves a list alone when its first and last characters are not
whitespace. -/
theorem pyStrip_noop (l : List Char)
    (hhead : ∀ c t, l = c :: t → wsB c = false)
    (hlast : ∀ c t, l.reverse = c :: t → wsB c = false) :
    pyStrip l = l := by
  unfold pyStrip
  rw [dropWhile_noop wsB l.reverse hlast, List.reverse_reverse,
      dropWhile_noop wsB l hhead]

/-- Stripping is idempotent. -/
theorem pyStrip_idem (l : List Char) : pyStrip (pyStrip l) = pyStrip l := by
  rcases h : pyStrip l with _ | ⟨c, t⟩
  · simp [pyStrip]
  · apply pyStrip_noop
    · intro d u hd
      have hdl : pyStrip l = d :: u := by rw [h, hd]
      exact pyStrip_head_not_ws l d u hdl
    · intro d u hd
      have hdl : (pyStrip l).reverse = d :: u := by rw [h]; exact hd
      exact pyStrip_last_not_ws l d u hdl

/-- If a list decomposes as an all-whitespace prefix followed by a
non-whitespace character, `pyStrip` begins exactly at that character. -/
theorem pyStrip_decomp (p r : List Char) (c : Char)
    (hp : ∀ a ∈ p, wsB a = true) (hc : wsB c = false) :
    ∃ r', pyStrip (p ++ c :: r) = c :: r' := by
  unfold pyStrip
  rw [show (p ++ c :: r).reverse = r.reverse ++ c :: p.reverse by simp]
  have hcnoop : ∀ (x : List Char), (c :: x).dropWhile wsB = c :: x := by
    intro x
    apply dropWhile_noop
    intro d u hdu
    injection hdu with h1 _
    subst h1
    exact hc
  rcases hr : r.reverse.dropWhile wsB with _ | ⟨d, t⟩
  · have hall := all_of_dropWhile_nil wsB _ hr
    rw [dropWhile_append_all wsB r.reverse (c :: p.reverse) hall, hcnoop]
    rw [show (c :: p.reverse).reverse = p ++ c :: ([] : List Char) by simp]
    rw [dropWhile_append_all wsB p _ hp, hcnoop]
    exact ⟨[], rfl⟩
  · rw [dropWhile_append_of_ne_nil wsB r.reverse (c :: p.reverse) d t hr]
    rw [show ((d :: t) ++ c :: p.reverse).reverse = p ++ c :: (d :: t).reverse by simp]
    rw [dropWhile_append_all wsB p _ hp, hcnoop]
    exact ⟨(d :: t).reverse, rfl⟩

theorem mem_of_mem_pyStrip {l : List Char} {c : Char} (h : c ∈ pyStrip l) : c ∈ l := by
  unfold pyStrip at h
  have h1 := dropWhile_sublist_mem wsB _ c h
  rw [List.mem_reverse] at h1
  have h2 := dropWhile_sublist_mem wsB _ c h1
  rwa [List.mem_reverse] at h2

/-- `takeWhile`/`dropWhile` on a list assembled from a block satisfying `p`
followed by a block whose head fails `p` recover exactly the two blocks. -/
theorem span_exact (p : Char → Bool) (xs ys : List Char)
    (hxs : ∀ a ∈ xs, p a = true)
    (hys : ∀ c t, ys = c :: t → p c = false) :
    (xs ++ ys).takeWhile p = xs ∧ (xs ++ ys).dropWhile p = ys := by
  constructor
  · rw [List.takeWhile_append_of_pos hxs]
    cases ys with
    | nil => simp
    | cons c t =>
      rw [List.takeWhile_cons_of_neg (by simp [hys c t rfl])]
      simp
  · rw [dropWhile_append_all p xs ys hxs]
    exact dropWhile_noop p ys hys

/-! ### The JSON value model

Python's `json.loads` parses text into a tree of dicts / lists / strings /
numbers / booleans / `None`.  Numbers are carried as their lexemes: nothing
in the verified code inspects numeric values.  Divergences from CPython not
reachable by any statement below: duplicate object keys (CPython keeps the
last; the model keeps all pairs, and lookups below take the last), the
non-standard `NaN`/`Infinity` literals (accepted by CPython, rejected
here), and `\u` surrogate pairs. -/

inductive Json where
  | str (s : String)
  | num (lexeme : String)
  | bool (b : Bool)
  | null
  | arr (items : List Json)
  | obj (fields : List (String × Json))
deriving Repr

/-- Curly-brace characters (written via code points). -/
def obCh : Char := Char.ofNat 123

def cbCh : Char := Char.ofNat 125

/-- The backtick character. -/
def tickCh : Char := Char.ofNat 96

/-- Python dict lookup for a dict built from a JSON object literal:
on duplicate keys the last binding wins. -/
def lookupLast (fs : List (String × Json)) (k : String) : Option Json :=
  match fs with
  | [] => none
  | (k2, v) :: rest =>
    match lookupLast rest k with
    | some w => some w
    | none => if k2 = k then some v else none

def skipWs (s : List Char) : List Char := s.dropWhile jsonWsB

def hexVal (c : Char) : Option Nat :=
  if 48 ≤ c.toNat && c.toNat ≤ 57 then some (c.toNat - 48)
  else if 97 ≤ c.toNat && c.toNat ≤ 102 then some (c.toNat - 87)
  else if 65 ≤ c.toNat && c.toNat ≤ 70 then some (c.toNat - 55)
  else none

def escChar (c : Char) : Option Char :=
  if c = '"' then some '"'
  else if c = '\\' then some '\\'
  else if c = '/' then some '/'
  else if c = 'b' then some (Char.ofNat 8)
  else if c = 'f' then some (Char.ofNat 12)
  else if c = 'n' then some '\n'
  else if c = 'r' then some '\r'
  else if c = 't' then some '\t'
  else none

/-- Body of a JSON string literal, after the opening quote; returns the
decoded characters and the input after the closing quote. -/
def parseStrBody : Nat → List Char → Option (List Char × List Char)
  | 0, _ => none
  | f+1, s =>
    match s with
    | [] => none
    | c :: r =>
      if c = '"' then some ([], r)
      else if c = '\\' then
        match r with
        | [] => none
        | e :: r2 =>
          if e = 'u' then
            match r2 with
            | h1 :: h2 :: h3 :: h4 :: r3 =>
              match hexVal h1, hexVal h2, hexVal h3, hexVal h4 with
              | some a, some b, some c2, some d =>
                match parseStrBody f r3 with
                | some (cs, r4) => some (Char.ofNat (((a*16+b)*16+c2)*16+d) :: cs, r4)
                | none => none
              | _, _, _, _ => none
            | _ => none
          else
            match escChar e with
            | some ch =>
              match parseStrBody f r2 with
              | some (cs, r3) => some (ch :: cs, r3)
              | none => none
            | none => none
      else if c.toNat < 32 then none
      else
        match parseStrBody f r with
        | some (cs, r2) => some (c :: cs, r2)
        | none => none

def parseExpPart (lex s : List Char) : Option (List Char × List Char) :=
  match s with
  | c :: cs =>
    if c = 'e' || c = 'E' then
      match cs with
      | d :: ds =>
        if d = '+' || d = '-' then
          let es := ds.takeWhile digitB
          if es = [] then none else some (lex ++ c :: d :: es, ds.dropWhile digitB)
        else
          let es := cs.takeWhile digitB
          if es = [] then none else some (lex ++ c :: es, cs.dropWhile digitB)
      | [] => none
    else some (lex, s)
  | [] => some (lex, s)

def parseFracPart (lex s : List Char) : Option (List Char × List Char) :=
  match s with
  | c :: cs =>
    if c = '.' then
      let ds := cs.takeWhile digitB
      if ds = [] then none else parseExpPart (lex ++ c :: ds) (cs.dropWhile digitB)
    else parseExpPart lex s
  | [] => parseExpPart lex s

/-- JSON number lexeme: `-? (0 | [1-9][0-9]*) frac? exp?`. -/
def parseNumber (s : List Char) : Option (List Char × List Char) :=
  match s with
  | c :: cs =>
    if c = '-' then
      match cs with
      | d :: ds =>
        if d = '0' then parseFracPart [c, d] ds
        else if digitB d then parseFracPart (c :: d :: ds.takeWhile digitB) (ds.dropWhile digitB)
        else none
      | [] => none
    else if c = '0' then parseFracPart [c] cs
    else if digitB c then parseFracPart (c :: cs.takeWhile digitB) (cs.dropWhile digitB)
    else none
  | [] => none

mutual

/-- One JSON value starting at the head of the input (whitespace already
skipped); returns the value and the unconsumed remainder. -/
def parseVal : Nat → List Char → Option (Json × List Char)
  | 0, _ => none
  | f+1, s =>
    match s with
    | [] => none
    | c :: r =>
      if c = '[' then
        match skipWs r with
        | ']' :: r2 => some (.arr [], r2)
        | r1 =>
          match parseItems f r1 with
          | some (xs, r2) => some (.arr xs, r2)
          | none => none
      else if c = obCh then
        match skipWs r with
        | d :: r2 =>
          if d = cbCh then some (.obj [], r2)
          else
            match parseFields f (d :: r2) with
            | some (fs, r3) => some (.obj fs, r3)
            | none => none
        | [] => none
      else if c = '"' then
        match parseStrBody (f+1) r with
        | some (cs, r2) => some (.str (String.mk cs), r2)
        | none => none
      else if c = 't' then
        match r with
        | 'r' :: 'u' :: 'e' :: r2 => some (.bool true, r2)
        | _ => none
      else if c = 'f' then
        match r with
        | 'a' :: 'l' :: 's' :: 'e' :: r2 => some (.bool false, r2)
        | _ => none
      else if c = 'n' then
        match r with
        | 'u' :: 'l' :: 'l' :: r2 => some (.null, r2)
        | _ => none
      else
        match parseNumber (c :: r) with
        | some (lex, r2) => some (.num (String.mk lex), r2)
        | none => none

/-- Comma-separated array items up to the closing bracket (at least one). -/
def parseItems : Nat → List Char → Option (List Json × List Char)
  | 0, _ => none
  | f+1, s =>
    match parseVal f s with
    | none => none
    | some (v, r) =>
      match skipWs r with
      | ',' :: r2 =>
        match parseItems f (skipWs r2) with
        | some (xs, r3) => some (v :: xs, r3)
        | none => none
      | ']' :: r2 => some ([v], r2)
      | _ => none

/-- Comma-separated `"key": value` pairs up to the closing brace (at least
one). -/
def parseFields : Nat → List Char → Option (List (String × Json) × List Char)
  | 0, _ => none
  | f+1, s =>
    match s with
    | '"' :: r =>
      match parseStrBody (f+1) r with
      | some (k, r1) =>
        match skipWs r1 with
        | ':' :: r2 =>
          match parseVal f (skipWs r2) with
          | some (v, r3) =>
            match skipWs r3 with
            | ',' :: r4 =>
              match parseFields f (skipWs r4) with
              | some (fs, r5) => some ((String.mk k, v) :: fs, r5)
              | none => none
            | d :: r4 => if d = cbCh then some ([(String.mk k, v)], r4) else none
            | [] => none
          | none => none
        | _ => none
      | none => none
    | _ => none

end

/-- Python `json.loads`: parse one JSON value, requiring only whitespace
around it; anything else is a `JSONDecodeError` (`none`). -/
def json_loads (s : List Char) : Option Json :=
  match parseVal (s.length + 1) (skipWs s) with
  | some (v, r) => if skipWs r = [] then some v else none
  | none => none

/-! ### The reference parser (`parse_reference`, app.py lines 63-80) -/

/-- The structured result of `parse_reference`: the four regex captures,
kept as strings exactly as in the Python dict (`verse_end` defaults to
`verse_start` when the range suffix is absent). -/
structure PyRef where
  book : String
  chapter : String
  verse_start : String
  verse_end : String
deriving DecidableEq, Repr

/-- Maximal-munch matcher for `^(\d?\s*[A-Za-z]+)\s+(\d+):(\d+)(?:-(\d+))?$`
on an already-stripped input, returning the captures
`(group 1, chapter, verseStart, verseEnd-or-default)`.  Adjacent variable
pieces of the regex draw from disjoint character classes, so greedy
maximal munch is equivalent to backtracking regex matching. -/
def refAfterVerse (book chap v1 s7 : List Char) :
    Option (List Char × List Char × List Char × List Char) :=
  match s7 with
  | [] => some (book, chap, v1, v1)
  | '-' :: s8 =>
    let v2 := s8.takeWhile digitB
    let s9 := s8.dropWhile digitB
    if v2 = [] then none
    else if s9 = [] then some (book, chap, v1, v2)
    else none
  | _ => none

def refAfterChap (book chap s5 : List Char) :
    Option (List Char × List Char × List Char × List Char) :=
  match s5 with
  | ':' :: s6 =>
    let v1 := s6.takeWhile digitB
    let s7 := s6.dropWhile digitB
    if v1 = [] then none else refAfterVerse book chap v1 s7
  | _ => none

def refAfterBook (book s3 : List Char) :
    Option (List Char × List Char × List Char × List Char) :=
  let ws2 := s3.takeWhile wsB
  let s4 := s3.dropWhile wsB
  if ws2 = [] then none else
  let chap := s4.takeWhile digitB
  let s5 := s4.dropWhile digitB
  if chap = [] then none else refAfterChap book chap s5

def refAfterDig (dig s1 : List Char) :
    Option (List Char × List Char × List Char × List Char) :=
  let ws1 := s1.takeWhile wsB
  let s2 := s1.dropWhile wsB
  let letters := s2.takeWhile alphaB
  let s3 := s2.dropWhile alphaB
  if letters = [] then none else refAfterBook (dig ++ ws1 ++ letters) s3

def parseRefChars (s : List Char) : Option (List Char × List Char × List Char × List Char) :=
  match s with
  | c :: t => if digitB c then refAfterDig [c] t else refAfterDig [] s
  | [] => refAfterDig [] []

/-- `parse_reference(ref)`: strip, match the regex, return the dict of
captures (`None` models the raised `ValueError("Invalid format. ...")`).
`group(1)` is stripped again as in the source (a no-op on matches of the
stripped string, but embedded faithfully). -/
def parse_reference (ref : String) : Option PyRef :=
  match parseRefChars (pyStrip ref.data) with
  | some (b, c, v, e) =>
      some ⟨String.mk (pyStrip b), String.mk c, String.mk v, String.mk e⟩
  | none => none

/-! ### The local verse table and the resolver (`fetch_greek_text`) -/

/-- The in-source demo table (app.py lines 91-97), in source order. -/
def verse_database : List (String × String) :=
  [("John 1:1", "Ἐν ἀρχῇ ἦν ὁ λόγος καὶ ὁ λόγος ἦν πρὸς τὸν θεόν καὶ θεὸς ἦν ὁ λόγος"),
   ("John 3:16", "οὕτως γὰρ ἠγάπησεν ὁ θεὸς τὸν κόσμον ὥστε τὸν υἱὸν τὸν μονογενῆ ἔδωκεν"),
   ("Romans 8:28", "οἴδαμεν δὲ ὅτι τοῖς ἀγαπῶσιν τὸν θεὸν πάντα συνεργεῖ εἰς ἀγαθόν"),
   ("Matthew 5:3", "Μακάριοι οἱ πτωχοὶ τῷ πνεύματι ὅτι αὐτῶν ἐστιν ἡ βασιλεία τῶν οὐρανῶν"),
   ("Philippians 2:5", "τοῦτο φρονεῖτε ἐν ὑμῖν ὃ καὶ ἐν Χριστῷ Ἰησοῦ")]

/-- The detail string of the 404 raised at lines 108 and 156:
`Verse '<reference>' not available. Demo verses: <keys>`. -/
def notFoundDetail (reference : String) : String :=
  "Verse \x27" ++ reference ++ "\x27 not available. Demo verses: " ++
    String.intercalate (", ") (verse_database.map Prod.fst)

/-- The remote tiers that `fetch_greek_text` may attempt. -/
inductive Provider where
  | tier2
  | tier3
deriving DecidableEq, Repr

/-- The environment of `fetch_greek_text`: each HTTP GET is a function from
the request path to either a raised exception (`Except.error`, covering
transport errors, `raise_for_status` and `.json()` failures) or the parsed
response body; plus the two env vars gating tier 3 (empty string models an
unset/falsy variable). -/
structure RemoteEnv where
  tier2Resp : String → Except String Json
  bibleApiKey : String
  bibleId : String
  tier3Resp : String → Except String Json

/-- The outcome of `fetch_greek_text`: a returned text, or the 404
`HTTPException` with its detail string. -/
inductive FetchOutcome where
  | found (text : String)
  | notFound (detail : String)
deriving DecidableEq, Repr

/-- Lines 118-120: iterate `data.get('verses', {}).items()` then each
`chapter_data.items()`, appending `verse_data.get('text', '')`.  Any
`.items()`/`.get` on a non-dict raises (`Except.error`), which the caller
absorbs. -/
def collectVerseRow : List (String × Json) → Except Unit (List Json)
  | [] => .ok []
  | (_, vd) :: rest =>
    match vd with
    | .obj f2 =>
      match collectVerseRow rest with
      | .ok more => .ok (((lookupLast f2 ("text")).getD (.str (""))) :: more)
      | .error e => .error e
    | _ => .error ()

def collectChapters : List (String × Json) → Except Unit (List Json)
  | [] => .ok []
  | (_, chData) :: rest =>
    match chData with
    | .obj verses =>
      match collectVerseRow verses with
      | .ok ts =>
        match collectChapters rest with
        | .ok more => .ok (ts ++ more)
        | .error e => .error e
      | .error e => .error e
    | _ => .error ()

/-- Lines 117-121 applied to the parsed tier-2 response body. -/
def tier2Collect (data : Json) : Except Unit (List Json) :=
  match data with
  | .obj fs =>
    match (lookupLast fs ("verses")).getD (.obj []) with
    | .obj chapters => collectChapters chapters
    | _ => .error ()
  | _ => .error ()

/-- `' '.join(verses)` type-checks its arguments: a non-string element is a
`TypeError` (modelled as `none`, absorbed by the caller). -/
def allStrings : List Json → Option (List String)
  | [] => some []
  | .str s :: rest =>
    match allStrings rest with
    | some strs => some (s :: strs)
    | none => none
  | _ => none

/-! The recursive string extraction of the optional tier-3 provider
(`extract_text`, lines 140-148): strings are appended to `text_parts` in
pre-order; dict traversal visits `obj.values()` in insertion order. -/

mutual

def extract_text : Json → List String
  | .str s => [s]
  | .obj fs => extractVals fs
  | .arr xs => extractElems xs
  | _ => []

def extractVals : List (String × Json) → List String
  | [] => []
  | (_, v) :: rest => extract_text v ++ extractVals rest

def extractElems : List Json → List String
  | [] => []
  | x :: xs => extract_text x ++ extractElems xs

end

/-- The tier-2 attempt (lines 111-125) for a given formatted reference:
`none` when the request raised, the shape walk raised, no verse text was
collected, or the join type-checked a non-string. -/
def tier2Attempt (env : RemoteEnv) (formattedRef : String) : Option String :=
  match env.tier2Resp formattedRef with
  | .error _ => none
  | .ok data =>
    match tier2Collect data with
    | .error _ => none
    | .ok texts =>
      if texts.isEmpty then none
      else
        match allStrings texts with
        | some strs => some (String.intercalate (" ") strs)
        | none => none

/-- The tier-3 attempt (lines 131-153) for a given passage path. -/
def tier3Attempt (env : RemoteEnv) (passagePath : String) : Option String :=
  match env.tier3Resp passagePath with
  | .error _ => none
  | .ok j =>
    match j with
    | .obj _ =>
      match extract_text j with
      | [] => none
      | strs => some (String.intercalate (" ") strs)
    | _ => none

/-- `fetch_greek_text` after a successful parse (lines 104-156): the two
remote tiers in order, then the final 404. -/
def afterParse (env : RemoteEnv) (parts : PyRef) (reference : String) :
    FetchOutcome × List Provider :=
  match tier2Attempt env (parts.book ++ "+" ++ parts.chapter ++ ":" ++ parts.verse_start) with
  | some t => (.found t, [.tier2])
  | none =>
    if env.bibleApiKey ≠ "" ∧ env.bibleId ≠ "" then
      match tier3Attempt env
          (parts.book ++ "%20" ++ parts.chapter ++ ":" ++ parts.verse_start) with
      | some t => (.found t, [.tier2, .tier3])
      | none => (.notFound (notFoundDetail reference), [.tier2, .tier3])
    else (.notFound (notFoundDetail reference), [.tier2])

/-- `fetch_greek_text` (lines 83-156).  Returns the outcome paired with the
list of remote providers attempted, in order (observational instrumentation;
the Python function's control flow determines it uniquely). -/
def fetchGreekText (env : RemoteEnv) (reference : String) : FetchOutcome × List Provider :=
  let normalized := String.mk (pyStrip reference.data)
  match List.lookup normalized verse_database with
  | some t => (.found t, [])
  | none =>
    match parse_reference reference with
    | none => (.notFound (notFoundDetail reference), [])
    | some parts => afterParse env parts reference

/-! ### The response normalizer (fence stripping + JSON validation) -/

/-- Three consecutive backticks, the `'```'` separator. -/
def ticks : List Char := [tickCh, tickCh, tickCh]

def jsonTag : List Char := ("json").data

/-- First occurrence of `sep`: the part before it and the part after it. -/
def findSplit (sep : List Char) : List Char → Option (List Char × List Char)
  | [] => if sep.isPrefixOf ([] : List Char) then some ([], []) else none
  | c :: t =>
    if sep.isPrefixOf (c :: t) then some ([], (c :: t).drop sep.length)
    else
      match findSplit sep t with
      | some (a, b) => some (c :: a, b)
      | none => none

/-- Whether `sep` occurs as a contiguous subsequence. -/
def hasSeq (sep s : List Char) : Bool := (findSplit sep s).isSome

/-- Python `s.split(sep, 2)`: at most two splits, hence at most three
parts. -/
def pySplit3 (sep s : List Char) : List (List Char) :=
  match findSplit sep s with
  | none => [s]
  | some (a, r) =>
    match findSplit sep r with
    | none => [a, r]
    | some (b, r2) => [a, b, r2]

/-- `if content.startswith('json'): content = content[4:]`. -/
def dropJsonTag (p : List Char) : List Char := if jsonTag.isPrefixOf p then p.drop 4 else p

/-- Lines 193-200 / 263-270: strip, strip a leading code fence if present
(take `split('```', 2)[1]`, drop a leading `json` tag), strip again. -/
def stripFences (s : List Char) : List Char :=
  let c := pyStrip s
  let c2 :=
    if ticks.isPrefixOf c then
      match pySplit3 ticks c with
      | _ :: p1 :: _ => dropJsonTag p1
      | _ => c
    else c
  pyStrip c2

/-- Outcome of normalizing the model output: the parsed JSON value, the 500
`Invalid JSON from AI` error (carrying the first 300 characters of the
offending text, as in `analyze_raw`), or `analyze_raw`'s 500
`AI output was not a JSON array as required.`. -/
inductive NormOutcome where
  | valid (j : Json)
  | invalidJson (snippet : String)
  | notArray
deriving Repr

/-- The normalization performed by `analyze_verse` (lines 193-202): fence
stripping then `json.loads`, with no check on the top-level type. -/
def normalize_verse (content : String) : NormOutcome :=
  let c := stripFences content.data
  match json_loads c with
  | some j => .valid j
  | none => .invalidJson (String.mk (c.take 300))

/-- The normalization performed by `analyze_raw` (lines 263-275): fence
stripping, `json.loads`, then `isinstance(parsed, list)`. -/
def normalize_raw (content : String) : NormOutcome :=
  let c := stripFences content.data
  match json_loads c with
  | some (.arr xs) => .valid (.arr xs)
  | some _ => .notArray
  | none => .invalidJson (String.mk (c.take 300))

/-! ### The grammar accepted by the reference regex -/

theorem wsB_not_alphaB {c : Char} (h : wsB c = true) : alphaB c = false := by
  simp [alphaB, wsB] at *; omega

theorem wsB_not_digitB {c : Char} (h : wsB c = true) : digitB c = false := by
  simp [digitB, wsB] at *; omega

/-- All characters of a list satisfy `p`. -/
@[reducible] def allL (p : Char → Bool) (l : List Char) : Prop := ∀ c ∈ l, p c = true

theorem takeWhile_all (p : Char → Bool) (l : List Char) (h : allL p l) :
    l.takeWhile p = l := by
  have hs := span_exact p l [] h (fun c t hct => absurd hct (by simp))
  simpa using hs.1

theorem dropWhile_all (p : Char → Bool) (l : List Char) (h : allL p l) :
    l.dropWhile p = [] :=
  dropWhile_eq_nil_of_all p l h

/-- Constraints under which the decomposition
`dig ++ ws1 ++ letters ++ ws2 ++ chap ++ ':' :: v ++ suffix(e)` is exactly
a match of `^(\d?\s*[A-Za-z]+)\s+(\d+):(\d+)(?:-(\d+))?$` against a stripped
string: optional single leading digit (internal whitespace only behind it),
one single-word ASCII book name, whitespace, chapter digits, colon, verse
digits, optional dash + end-verse digits. -/
@[reducible] def refGrammar (dig ws1 letters ws2 chap v : List Char)
    (e : Option (List Char)) : Prop :=
  ((dig = [] ∧ ws1 = []) ∨ (dig.length = 1 ∧ allL digitB dig ∧ allL wsB ws1)) ∧
  letters ≠ [] ∧ allL alphaB letters ∧
  ws2 ≠ [] ∧ allL wsB ws2 ∧
  chap ≠ [] ∧ allL digitB chap ∧
  v ≠ [] ∧ allL digitB v ∧
  (match e with
   | none => True
   | some ed => ed ≠ [] ∧ allL digitB ed)

/-- The optional `-endVerse` suffix. -/
def rangeSuffix (e : Option (List Char)) : List Char :=
  match e with
  | none => []
  | some ed => '-' :: ed

/-- The string assembled from a grammar decomposition. -/
def refString (dig ws1 letters ws2 chap v : List Char) (e : Option (List Char)) : List Char :=
  dig ++ (ws1 ++ (letters ++ (ws2 ++ (chap ++ (':' :: (v ++ rangeSuffix e))))))

theorem refAfterVerse_eval_range (book chap v1 ed : List Char)
    (hne : ed ≠ []) (hd : allL digitB ed) :
    refAfterVerse book chap v1 ('-' :: ed) = some (book, chap, v1, ed) := by
  simp only [refAfterVerse, takeWhile_all digitB ed hd, dropWhile_all digitB ed hd]
  simp [hne]

theorem refAfterChap_eval (book chap v s7 : List Char)
    (hv : allL digitB v) (hvne : v ≠ [])
    (hs7 : ∀ c t, s7 = c :: t → digitB c = false) :
    refAfterChap book chap (':' :: (v ++ s7)) = refAfterVerse book chap v s7 := by
  obtain ⟨ht, hd⟩ := span_exact digitB v s7 hv hs7
  simp only [refAfterChap, ht, hd]
  simp [hvne]

theorem refAfterBook_eval (book ws2 chap s5 : List Char)
    (hws2 : allL wsB ws2) (hwne : ws2 ≠ [])
    (hchap : allL digitB chap) (hcne : chap ≠ [])
    (hs5 : ∀ c t, s5 = c :: t → digitB c = false) :
    refAfterBook book (ws2 ++ (chap ++ s5)) = refAfterChap book chap s5 := by
  unfold refAfterBook
  have hchaphead : ∀ c t, chap ++ s5 = c :: t → wsB c = false := by
    intro c t hct
    cases chap with
    | nil => exact absurd rfl hcne
    | cons a b =>
      rw [List.cons_append] at hct
      injection hct with h1 _
      subst h1
      exact digitB_not_wsB (hchap a (by simp))
  obtain ⟨ht1, hd1⟩ := span_exact wsB ws2 (chap ++ s5) hws2 hchaphead
  obtain ⟨ht2, hd2⟩ := span_exact digitB chap s5 hchap hs5
  simp only [refAfterBook, ht1, hd1, ht2, hd2]
  simp [hwne, hcne]

theorem refAfterDig_eval (dig ws1 letters s3 : List Char)
    (hws1 : allL wsB ws1) (hlet : allL alphaB letters) (hlne : letters ≠ [])
    (hs3 : ∀ c t, s3 = c :: t → alphaB c = false) :
    refAfterDig dig (ws1 ++ (letters ++ s3)) = refAfterBook (dig ++ ws1 ++ letters) s3 := by
  unfold refAfterDig
  have hlethead : ∀ c t, letters ++ s3 = c :: t → wsB c = false := by
    intro c t hct
    cases letters with
    | nil => exact absurd rfl hlne
    | cons a b =>
      rw [List.cons_append] at hct
      injection hct with h1 _
      subst h1
      exact alphaB_not_wsB (hlet a (by simp))
  obtain ⟨ht1, hd1⟩ := span_exact wsB ws1 (letters ++ s3) hws1 hlethead
  obtain ⟨ht2, hd2⟩ := span_exact alphaB letters s3 hlet hs3
  simp only [refAfterDig, ht1, hd1, ht2, hd2]
  simp [hlne]

/-- Completeness of the embedded regex matcher: every string assembled from
a grammar decomposition parses to the corresponding captures. -/
theorem parseRefChars_complete (dig ws1 letters ws2 chap v : List Char)
    (e : Option (List Char)) (hg : refGrammar dig ws1 letters ws2 chap v e) :
    parseRefChars (refString dig ws1 letters ws2 chap v e) =
      some (dig ++ ws1 ++ letters, chap, v, e.getD v) := by
  obtain ⟨hdig, hlne, hlet, hwne2, hws2, hcne, hchap, hvne, hv, he⟩ := hg
  have hs7head : ∀ c t, rangeSuffix e = c :: t → digitB c = false := by
    intro c t hct
    cases e with
    | none => simp [rangeSuffix] at hct
    | some ed =>
      simp only [rangeSuffix] at hct
      injection hct with h1 _
      subst h1
      decide
  have hs5head : ∀ c t, (':' :: (v ++ rangeSuffix e)) = c :: t → digitB c = false := by
    intro c t hct
    injection hct with h1 _
    subst h1
    decide
  have hs3head :
      ∀ c t, (ws2 ++ (chap ++ (':' :: (v ++ rangeSuffix e)))) = c :: t → alphaB c = false := by
    intro c t hct
    cases ws2 with
    | nil => exact absurd rfl hwne2
    | cons a b =>
      rw [List.cons_append] at hct
      injection hct with h1 _
      subst h1
      exact wsB_not_alphaB (hws2 a (by simp))
  have hlast : refAfterVerse (dig ++ ws1 ++ letters) chap v (rangeSuffix e) =
      some (dig ++ ws1 ++ letters, chap, v, e.getD v) := by
    cases e with
    | none => simp [rangeSuffix, refAfterVerse, Option.getD]
    | some ed =>
      obtain ⟨hedne, hed⟩ := he
      simp only [rangeSuffix, Option.getD]
      exact refAfterVerse_eval_range _ _ _ ed hedne hed
  have hws1' : allL wsB ws1 := by
    rcases hdig with ⟨_, hw1⟩ | ⟨_, _, hws1⟩
    · subst hw1; intro c hc; simp at hc
    · exact hws1
  have hchain :
      refAfterDig dig (ws1 ++ (letters ++ (ws2 ++ (chap ++ (':' :: (v ++ rangeSuffix e)))))) =
        some (dig ++ ws1 ++ letters, chap, v, e.getD v) := by
    rw [refAfterDig_eval dig ws1 letters _ hws1' hlet hlne hs3head,
        refAfterBook_eval _ ws2 chap _ hws2 hwne2 hchap hcne hs5head,
        refAfterChap_eval _ chap v _ hv hvne hs7head]
    exact hlast
  rcases hdig with ⟨hd1, hw1⟩ | ⟨hlen, hddig, _⟩
  · subst hd1; subst hw1
    obtain ⟨lc, lt, hlc⟩ : ∃ lc lt, letters = lc :: lt := by
      cases letters with
      | nil => exact absurd rfl hlne
      | cons a b => exact ⟨a, b, rfl⟩
    have hldig : digitB lc = false := alphaB_not_digitB (hlet lc (by rw [hlc]; simp))
    have hs : refString [] [] letters ws2 chap v e =
        lc :: (lt ++ (ws2 ++ (chap ++ (':' :: (v ++ rangeSuffix e))))) := by
      simp [refString, hlc]
    rw [hs]
    simp only [parseRefChars]
    rw [if_neg (by simp [hldig])]
    have harg : lc :: (lt ++ (ws2 ++ (chap ++ (':' :: (v ++ rangeSuffix e))))) =
        [] ++ (letters ++ (ws2 ++ (chap ++ (':' :: (v ++ rangeSuffix e))))) := by
      simp [hlc]
    rw [harg]
    simpa using hchain
  · obtain ⟨d, hd⟩ : ∃ d, dig = [d] := by
      cases dig with
      | nil => simp at hlen
      | cons a b =>
        cases b with
        | nil => exact ⟨a, rfl⟩
        | cons x y => simp at hlen
    subst hd
    have hddig' : digitB d = true := hddig d (by simp)
    have hs : refString [d] ws1 letters ws2 chap v e =
        d :: (ws1 ++ (letters ++ (ws2 ++ (chap ++ (':' :: (v ++ rangeSuffix e)))))) := by
      simp [refString]
    rw [hs]
    simp only [parseRefChars]
    rw [if_pos hddig']
    exact hchain

theorem refAfterVerse_sound (book chap v1 s7 : List Char)
    (r : List Char × List Char × List Char × List Char)
    (h : refAfterVerse book chap v1 s7 = some r) :
    (s7 = [] ∧ r = (book, chap, v1, v1)) ∨
    (∃ ed, s7 = '-' :: ed ∧ ed ≠ [] ∧ allL digitB ed ∧ r = (book, chap, v1, ed)) := by
  unfold refAfterVerse at h
  split at h
  · left
    exact ⟨rfl, (Option.some.injEq _ _ ▸ h).symm⟩
  · rename_i s8
    right
    simp only at h
    by_cases hv2 : s8.takeWhile digitB = []
    · rw [if_pos hv2] at h
      exact absurd h (by simp)
    · rw [if_neg hv2] at h
      by_cases hs9 : s8.dropWhile digitB = []
      · rw [if_pos hs9] at h
        have hall : allL digitB s8 := all_of_dropWhile_nil digitB s8 hs9
        have hne : s8 ≠ [] := by
          intro hnil
          rw [hnil] at hv2
          simp at hv2
        have htw : s8.takeWhile digitB = s8 := takeWhile_all digitB s8 hall
        refine ⟨s8, rfl, hne, hall, ?_⟩
        rw [htw] at h
        exact (Option.some.injEq _ _ ▸ h).symm
      · rw [if_neg hs9] at h
        exact absurd h (by simp)
  · exact absurd h (by simp)

theorem refAfterChap_sound (book chap s5 : List Char)
    (r : List Char × List Char × List Char × List Char)
    (h : refAfterChap book chap s5 = some r) :
    ∃ v s7, s5 = ':' :: (v ++ s7) ∧ v ≠ [] ∧ allL digitB v ∧
      (∀ c t, s7 = c :: t → digitB c = false) ∧
      refAfterVerse book chap v s7 = some r := by
  unfold refAfterChap at h
  split at h
  · rename_i s6
    simp only at h
    by_cases hv1 : s6.takeWhile digitB = []
    · rw [if_pos hv1] at h
      exact absurd h (by simp)
    · rw [if_neg hv1] at h
      refine ⟨s6.takeWhile digitB, s6.dropWhile digitB, ?_, hv1, ?_, ?_, h⟩
      · rw [List.takeWhile_append_dropWhile]
      · intro c hc
        exact List.mem_takeWhile_imp hc
      · intro c t hct
        exact dropWhile_head_false digitB s6 c t hct
  · exact absurd h (by simp)

theorem refAfterBook_sound (book s3 : List Char)
    (r : List Char × List Char × List Char × List Char)
    (h : refAfterBook book s3 = some r) :
    ∃ ws2 chap s5, s3 = ws2 ++ (chap ++ s5) ∧ ws2 ≠ [] ∧ allL wsB ws2 ∧
      chap ≠ [] ∧ allL digitB chap ∧
      (∀ c t, s5 = c :: t → digitB c = false) ∧
      refAfterChap book chap s5 = some r := by
  unfold refAfterBook at h
  simp only at h
  by_cases hw : s3.takeWhile wsB = []
  · rw [if_pos hw] at h
    exact absurd h (by simp)
  · rw [if_neg hw] at h
    by_cases hc : (s3.dropWhile wsB).takeWhile digitB = []
    · rw [if_pos hc] at h
      exact absurd h (by simp)
    · rw [if_neg hc] at h
      refine ⟨s3.takeWhile wsB, (s3.dropWhile wsB).takeWhile digitB,
        (s3.dropWhile wsB).dropWhile digitB, ?_, hw, ?_, hc, ?_, ?_, h⟩
      · rw [List.takeWhile_append_dropWhile, List.takeWhile_append_dropWhile]
      · intro c hcm
        exact List.mem_takeWhile_imp hcm
      · intro c hcm
        exact List.mem_takeWhile_imp hcm
      · intro c t hct
        exact dropWhile_head_false digitB _ c t hct

theorem refAfterDig_sound (dig s1 : List Char)
    (r : List Char × List Char × List Char × List Char)
    (h : refAfterDig dig s1 = some r) :
    ∃ ws1 letters s3, s1 = ws1 ++ (letters ++ s3) ∧
      ws1 = s1.takeWhile wsB ∧ allL wsB ws1 ∧
      letters ≠ [] ∧ allL alphaB letters ∧
      (∀ c t, s3 = c :: t → alphaB c = false) ∧
      refAfterBook (dig ++ ws1 ++ letters) s3 = some r := by
  unfold refAfterDig at h
  simp only at h
  by_cases hl : (s1.dropWhile wsB).takeWhile alphaB = []
  · rw [if_pos hl] at h
    exact absurd h (by simp)
  · rw [if_neg hl] at h
    refine ⟨s1.takeWhile wsB, (s1.dropWhile wsB).takeWhile alphaB,
      (s1.dropWhile wsB).dropWhile alphaB, ?_, rfl, ?_, hl, ?_, ?_, h⟩
    · rw [List.takeWhile_append_dropWhile, List.takeWhile_append_dropWhile]
    · intro c hcm
      exact List.mem_takeWhile_imp hcm
    · intro c hcm
      exact List.mem_takeWhile_imp hcm
    · intro c t hct
      exact dropWhile_head_false alphaB _ c t hct

/-- Combined inversion of the four matcher stages. -/
theorem refAfterDig_decomp (dig s1 : List Char)
    (r : List Char × List Char × List Char × List Char)
    (h : refAfterDig dig s1 = some r) :
    ∃ ws1 letters ws2 chap v e,
      ws1 = s1.takeWhile wsB ∧ allL wsB ws1 ∧
      letters ≠ [] ∧ allL alphaB letters ∧
      ws2 ≠ [] ∧ allL wsB ws2 ∧ chap ≠ [] ∧ allL digitB chap ∧
      v ≠ [] ∧ allL digitB v ∧
      (match e with
       | none => True
       | some ed => ed ≠ [] ∧ allL digitB ed) ∧
      s1 = ws1 ++ (letters ++ (ws2 ++ (chap ++ (':' :: (v ++ rangeSuffix e))))) ∧
      r = (dig ++ ws1 ++ letters, chap, v, e.getD v) := by
  obtain ⟨ws1, letters, s3, hs1, hws1tw, hws1, hlne, hlet, _, hb⟩ :=
    refAfterDig_sound dig s1 r h
  obtain ⟨ws2, chap, s5, hs3, hwne2, hws2, hcne, hchap, _, hc⟩ :=
    refAfterBook_sound _ s3 r hb
  obtain ⟨v, s7, hs5, hvne, hv, _, hver⟩ := refAfterChap_sound _ chap s5 r hc
  obtain ⟨hs7, hr⟩ | ⟨ed, hs7, hedne, hed, hr⟩ := refAfterVerse_sound _ chap v s7 r hver
  · refine ⟨ws1, letters, ws2, chap, v, none, hws1tw, hws1, hlne, hlet,
      hwne2, hws2, hcne, hchap, hvne, hv, trivial, ?_, ?_⟩
    · rw [hs1, hs3, hs5, hs7]
      simp [rangeSuffix]
    · simpa [Option.getD] using hr
  · refine ⟨ws1, letters, ws2, chap, v, some ed, hws1tw, hws1, hlne, hlet,
      hwne2, hws2, hcne, hchap, hvne, hv, ⟨hedne, hed⟩, ?_, ?_⟩
    · rw [hs1, hs3, hs5, hs7]
      simp [rangeSuffix]
    · simpa [Option.getD] using hr

/-- Soundness of the embedded regex matcher on a stripped input (head not
whitespace): every successful parse arises from a grammar decomposition. -/
theorem parseRefChars_sound (s : List Char)
    (r : List Char × List Char × List Char × List Char)
    (hhead : ∀ c t, s = c :: t → wsB c = false)
    (h : parseRefChars s = some r) :
    ∃ dig ws1 letters ws2 chap v e, refGrammar dig ws1 letters ws2 chap v e ∧
      s = refString dig ws1 letters ws2 chap v e ∧
      r = (dig ++ ws1 ++ letters, chap, v, e.getD v) := by
  cases s with
  | nil =>
    rw [show parseRefChars [] = none from rfl] at h
    exact Option.noConfusion h
  | cons c t =>
    simp only [parseRefChars] at h
    by_cases hc : digitB c = true
    · rw [if_pos hc] at h
      obtain ⟨ws1, letters, ws2, chap, v, e, hws1tw, hws1, hlne, hlet, hwne2, hws2,
        hcne, hchap, hvne, hv, he, hs1, hr⟩ := refAfterDig_decomp [c] t r h
      refine ⟨[c], ws1, letters, ws2, chap, v, e, ?_, ?_, hr⟩
      · exact ⟨Or.inr ⟨by simp, by intro a ha; simp at ha; rw [ha]; exact hc, hws1⟩,
          hlne, hlet, hwne2, hws2, hcne, hchap, hvne, hv, he⟩
      · rw [refString, ← hs1]
        simp
    · rw [if_neg hc] at h
      obtain ⟨ws1, letters, ws2, chap, v, e, hws1tw, hws1, hlne, hlet, hwne2, hws2,
        hcne, hchap, hvne, hv, he, hs1, hr⟩ := refAfterDig_decomp [] (c :: t) r h
      have hcws : wsB c = false := hhead c t rfl
      have hws1nil : ws1 = [] := by
        rw [hws1tw, List.takeWhile_cons_of_neg (by simp [hcws])]
      subst hws1nil
      refine ⟨[], [], letters, ws2, chap, v, e, ?_, ?_, ?_⟩
      · exact ⟨Or.inl ⟨rfl, rfl⟩, hlne, hlet, hwne2, hws2, hcne, hchap, hvne, hv, he⟩
      · rw [refString]
        simpa using hs1
      · simpa using hr

theorem parse_reference_complete (s : String) (dig ws1 letters ws2 chap v : List Char)
    (e : Option (List Char)) (hg : refGrammar dig ws1 letters ws2 chap v e)
    (hs : pyStrip s.data = refString dig ws1 letters ws2 chap v e) :
    parse_reference s =
      some ⟨String.mk (pyStrip (dig ++ ws1 ++ letters)), String.mk chap,
        String.mk v, String.mk (e.getD v)⟩ := by
  unfold parse_reference
  rw [hs, parseRefChars_complete dig ws1 letters ws2 chap v e hg]

theorem parse_reference_sound (s : String) (r : PyRef) (h : parse_reference s = some r) :
    ∃ dig ws1 letters ws2 chap v e, refGrammar dig ws1 letters ws2 chap v e ∧
      pyStrip s.data = refString dig ws1 letters ws2 chap v e ∧
      r = ⟨String.mk (pyStrip (dig ++ ws1 ++ letters)), String.mk chap,
        String.mk v, String.mk (e.getD v)⟩ := by
  unfold parse_reference at h
  cases hp : parseRefChars (pyStrip s.data) with
  | none => rw [hp] at h; exact Option.noConfusion h
  | some quad =>
    rw [hp] at h
    obtain ⟨b, chap, v, en⟩ := quad
    obtain ⟨dig, ws1, letters, ws2, chap2, v2, e, hg, hs, hq⟩ :=
      parseRefChars_sound (pyStrip s.data) (b, chap, v, en)
        (fun c t hct => pyStrip_head_not_ws s.data c t hct) hp
    injection hq with hb hq
    injection hq with hchap hq
    injection hq with hv hen
    refine ⟨dig, ws1, letters, ws2, chap2, v2, e, hg, hs, ?_⟩
    simp only at h
    have hr := Option.some.inj h
    rw [← hr, hb, hchap, hv, hen]

/-! ### Claim C2 -/

/-- C2 fails as stated: the parser never compares the two verse numbers, so
`"John 1:5-3"` parses to a reference whose end verse 3 is below its start
verse 5. -/
theorem C2_counterexample :
    parse_reference ("John 1:5-3") = some ⟨"John", "1", "5", "3"⟩ ∧
    digitsVal (PyRef.verse_end ⟨"John", "1", "5", "3"⟩) <
      digitsVal (PyRef.verse_start ⟨"John", "1", "5", "3"⟩) :=
  ⟨rfl, by decide⟩

/-- C2 (amended): when the input specifies no verse range (it contains no
dash, the only way the regex can skip the range suffix), every reference
produced by `parse_reference` has `verse_end = verse_start`, hence
`verse_end ≥ verse_start` as integers; with a range suffix the parser
copies the written end verse unchecked. -/
theorem C2_no_range_verse_end_eq_start (s : String) (r : PyRef)
    (h : parse_reference s = some r) (hnd : '-' ∉ s.data) :
    r.verse_end = r.verse_start ∧ digitsVal r.verse_start ≤ digitsVal r.verse_end := by
  obtain ⟨dig, ws1, letters, ws2, chap, v, e, _, hs, hr⟩ := parse_reference_sound s r h
  cases e with
  | some ed =>
    exfalso
    have hmem : '-' ∈ pyStrip s.data := by
      rw [hs]
      simp [refString, rangeSuffix]
    exact hnd (mem_of_mem_pyStrip hmem)
  | none =>
    subst hr
    simp [Option.getD]

/-- C2 witness at the rangeless input `"John 1:1"`. -/
theorem C2_no_range_verse_end_eq_start_witness :
    parse_reference ("John 1:1") = some ⟨"John", "1", "1", "1"⟩ ∧
    ('-' ∉ ("John 1:1").data) ∧
    (PyRef.verse_end ⟨"John", "1", "1", "1"⟩ = PyRef.verse_start ⟨"John", "1", "1", "1"⟩ ∧
      digitsVal (PyRef.verse_start ⟨"John", "1", "1", "1"⟩) ≤
        digitsVal (PyRef.verse_end ⟨"John", "1", "1", "1"⟩)) :=
  ⟨rfl, by decide, C2_no_range_verse_end_eq_start ("John 1:1") _ rfl (by decide)⟩

/-! ### Claim C3 -/

/-- The book-name part of the accepted grammar **as the specification words
it** (spec section 4.1: "one or more book-name words"): ASCII-letter words
separated by whitespace runs. -/
inductive SpecBookWords : List Char → Prop
  | single (w : List Char) : w ≠ [] → allL alphaB w → SpecBookWords w
  | more (w sep rest : List Char) : w ≠ [] → allL alphaB w → sep ≠ [] → allL wsB sep →
      SpecBookWords rest → SpecBookWords (w ++ (sep ++ rest))

/-- The accepted grammar **as the specification words it** (spec section
4.1): optional leading digit, one or more book-name words, chapter digits,
colon, verse digits, optional dash and end-verse digits, applied to the
trimmed input. -/
def specGrammarMatch (s chap v : List Char) (e : Option (List Char)) : Prop :=
  ∃ lead book sep,
    (lead = [] ∨ ∃ d sd, digitB d = true ∧ allL wsB sd ∧ lead = d :: sd) ∧
    SpecBookWords book ∧ sep ≠ [] ∧ allL wsB sep ∧
    chap ≠ [] ∧ allL digitB chap ∧ v ≠ [] ∧ allL digitB v ∧
    (match e with
     | none => True
     | some ed => ed ≠ [] ∧ allL digitB ed) ∧
    pyStrip s = lead ++ (book ++ (sep ++ (chap ++ (':' :: (v ++ rangeSuffix e)))))

/-- C3 fails as stated: `"Song of Solomon 1:1"` matches the grammar the
specification describes (multi-word book name), yet the code's regex
(`[A-Za-z]+`, a single word) rejects it. -/
theorem C3_counterexample :
    specGrammarMatch ("Song of Solomon 1:1").data ("1").data ("1").data none ∧
    parse_reference ("Song of Solomon 1:1") = none := by
  constructor
  · refine ⟨[], ("Song of Solomon").data, (" ").data, Or.inl rfl, ?_, by decide, by decide,
      by decide, by decide, by decide, by decide, trivial, by decide⟩
    have heq : ("Song of Solomon").data =
        ("Song").data ++ ((" ").data ++ (("of").data ++ ((" ").data ++ ("Solomon").data))) := by
      decide
    rw [heq]
    exact SpecBookWords.more _ _ _ (by decide) (by decide) (by decide) (by decide)
      (SpecBookWords.more _ _ _ (by decide) (by decide) (by decide) (by decide)
        (SpecBookWords.single _ (by decide) (by decide)))
  · rfl

/-- C3 (amended): the book name accepted by the code is a single ASCII-letter
word (optionally preceded by one digit and whitespace), not "one or more
book-name words".  With that correction: every string whose trimmed form
decomposes per `refGrammar` parses, with `chapter` and `verse_start`
exactly the digit substrings written in the input (hence the same
integers) — such strings are all-ASCII by construction, where the model is
exact — and every string of ASCII characters admitting no such
decomposition is rejected (`parse_reference` returns `none`, the modelled
`ValueError("Invalid format...")`; the total model has no other failure
mode).  The all-ASCII hypothesis on the rejection direction scopes the
statement to the domain on which the embedded classes coincide with
CPython's: outside ASCII the code's `\s`, `\d` and `IGNORECASE [A-Za-z]`
are wider, and e.g. a reference written with a no-break space or
Arabic-Indic digits is accepted by the code though it matches no
`refGrammar` decomposition. -/
theorem C3_parser_grammar_roundtrip (s : String) :
    (∀ dig ws1 letters ws2 chap v e,
        refGrammar dig ws1 letters ws2 chap v e →
        pyStrip s.data = refString dig ws1 letters ws2 chap v e →
        parse_reference s =
          some ⟨String.mk (pyStrip (dig ++ ws1 ++ letters)), String.mk chap,
            String.mk v, String.mk (e.getD v)⟩) ∧
    (allL asciiB s.data →
      (∀ dig ws1 letters ws2 chap v e, refGrammar dig ws1 letters ws2 chap v e →
        pyStrip s.data ≠ refString dig ws1 letters ws2 chap v e) →
      parse_reference s = none) := by
  constructor
  · intro dig ws1 letters ws2 chap v e hg hs
    exact parse_reference_complete s dig ws1 letters ws2 chap v e hg hs
  · intro _ hno
    cases hp : parse_reference s with
    | none => rfl
    | some r =>
      exfalso
      obtain ⟨dig, ws1, letters, ws2, chap, v, e, hg, hs, _⟩ := parse_reference_sound s r hp
      exact hno dig ws1 letters ws2 chap v e hg hs

/-- C3 witness: the acceptance direction at `"1 John 2:3-4"` and the
rejection direction at the ASCII string `"John"` (whose stripped form
cannot equal any `refString`, which always contains a colon). -/
theorem C3_parser_grammar_roundtrip_witness :
    parse_reference ("1 John 2:3-4") = some ⟨"1 John", "2", "3", "4"⟩ ∧
    (allL asciiB (("John").data) ∧ parse_reference ("John") = none) := by
  refine ⟨?_, by decide, ?_⟩
  · exact (C3_parser_grammar_roundtrip ("1 John 2:3-4")).1
      ['1'] [' '] (("John").data) ([' ']) (("2").data) (("3").data) (some (("4").data))
      (by decide) (by decide)
  · apply (C3_parser_grammar_roundtrip ("John")).2 (by decide)
    intro dig ws1 letters ws2 chap v e _ heq
    have hmem : ':' ∈ pyStrip (("John").data) := by
      rw [heq]
      simp [refString]
    have hmem2 : ':' ∈ (("John").data) := mem_of_mem_pyStrip hmem
    exact absurd hmem2 (by decide)

/-! ### Claim C1 -/

/-- An environment whose remote tiers always raise and whose tier-3 env vars
are unset; used to instantiate environment-generic theorems. -/
def envFail : RemoteEnv :=
  ⟨fun _ => Except.error ("boom"), "", "", fun _ => Except.error ("boom")⟩

/-- C1: when the trimmed reference is a key of the local table,
`fetch_greek_text` returns exactly the stored text and attempts no remote
provider (the lookup at lines 100-101 precedes both tiers). -/
theorem C1_local_table_short_circuits (env : RemoteEnv) (ref t : String)
    (h : List.lookup (String.mk (pyStrip ref.data)) verse_database = some t) :
    fetchGreekText env ref = (.found t, []) := by
  simp only [fetchGreekText, h]

/-- C1 witness: `"  John 1:1 "` (exercising the trim) under an environment
whose remote tiers would fail. -/
theorem C1_local_table_short_circuits_witness :
    List.lookup (String.mk (pyStrip (("  John 1:1 ").data))) verse_database =
      some ("Ἐν ἀρχῇ ἦν ὁ λόγος καὶ ὁ λόγος ἦν πρὸς τὸν θεόν καὶ θεὸς ἦν ὁ λόγος") ∧
    fetchGreekText envFail ("  John 1:1 ") =
      (.found ("Ἐν ἀρχῇ ἦν ὁ λόγος καὶ ὁ λόγος ἦν πρὸς τὸν θεόν καὶ θεὸς ἦν ὁ λόγος"), []) :=
  ⟨rfl, C1_local_table_short_circuits envFail ("  John 1:1 ") _ rfl⟩

/-! ### Claim C5 -/

/-- The spec's single-entry valid test input
`[{"word":"λόγος","strong":"G3056","lemma":"λόγος","translation":"word","alternatives":["word","reason"]}]`. -/
def logosInput : String :=
  "[\x7b\x22word\x22:\x22λόγος\x22,\x22strong\x22:\x22G3056\x22,\x22lemma\x22:\x22λόγος\x22,\x22translation\x22:\x22word\x22,\x22alternatives\x22:[\x22word\x22,\x22reason\x22]\x7d]"

/-- The parsed fields of the single entry of `logosInput`. -/
def logosFields : List (String × Json) :=
  [("word", .str ("λόγος")), ("strong", .str ("G3056")), ("lemma", .str ("λόγος")),
   ("translation", .str ("word")), ("alternatives", .arr [.str ("word"), .str ("reason")])]

/-- C5 fails as stated for the general endpoint: `analyze_verse` never
requires the parsed top-level value to be an array, so normalizing `"{}"`
there succeeds with the empty object instead of failing with
`Malformed("expected array")`. -/
theorem C5_counterexample :
    normalize_verse ("\x7b\x7d") = .valid (.obj []) := rfl

/-- C5 (amended): the invalid-JSON failure and the λόγος success hold for
both endpoints, but the `expected array` failure on `"{}"` holds only for
the raw/validated endpoint (`analyze_raw`); the general endpoint
(`analyze_verse`) passes the non-array value through as a success. -/
theorem C5_normalizer_strictness :
    normalize_verse ("not json") = .invalidJson ("not json") ∧
    normalize_raw ("not json") = .invalidJson ("not json") ∧
    normalize_raw ("\x7b\x7d") = .notArray ∧
    normalize_verse ("\x7b\x7d") = .valid (.obj []) ∧
    normalize_raw logosInput = .valid (.arr [.obj logosFields]) ∧
    normalize_verse logosInput = .valid (.arr [.obj logosFields]) ∧
    lookupLast logosFields ("word") = some (.str ("λόγος")) :=
  ⟨rfl, rfl, rfl, rfl, rfl, rfl, rfl⟩

/-! ### Claim C7 -/

/-- A well-shaped lexical entry **as the specification words it** (spec
section 4.4 step 6): an object carrying at least `word`, `strong`, `lemma`,
`translation` as strings and `alternatives` as an array of strings. -/
def specEntryShape (j : Json) : Bool :=
  match j with
  | .obj fs =>
    (match lookupLast fs ("word") with
     | some (.str _) => true
     | _ => false) &&
    (match lookupLast fs ("strong") with
     | some (.str _) => true
     | _ => false) &&
    (match lookupLast fs ("lemma") with
     | some (.str _) => true
     | _ => false) &&
    (match lookupLast fs ("translation") with
     | some (.str _) => true
     | _ => false) &&
    (match lookupLast fs ("alternatives") with
     | some (.arr xs) =>
       xs.all (fun x =>
         match x with
         | .str _ => true
         | _ => false)
     | _ => false)
  | _ => false

/-- C7 fails as stated: `analyze_raw` returns `[42]` to the caller even
though `42` is not an object with the required fields — no element-shape
validation exists on the raw/validated endpoint. -/
theorem C7_counterexample :
    normalize_raw ("[42]") = .valid (.arr [.num ("42")]) ∧
    specEntryShape (.num ("42")) = false :=
  ⟨rfl, rfl⟩

/-- C7 (amended): the raw/validated endpoint rejects only a non-array
top-level value (`isinstance(parsed, list)`, line 274); element shapes are
never validated, so a response array is returned unchanged even when some
element violates the required entry shape. -/
theorem C7_raw_checks_array_only (s : String) (xs : List Json)
    (h : json_loads (stripFences s.data) = some (.arr xs))
    (hbad : ∃ x ∈ xs, specEntryShape x = false) :
    normalize_raw s = .valid (.arr xs) := by
  simp only [normalize_raw, h]

/-- C7 witness at the response text `"[42]"`. -/
theorem C7_raw_checks_array_only_witness :
    json_loads (stripFences (("[42]").data)) = some (.arr [.num ("42")]) ∧
    (∃ x ∈ [Json.num ("42")], specEntryShape x = false) ∧
    normalize_raw ("[42]") = .valid (.arr [.num ("42")]) :=
  ⟨rfl, ⟨.num ("42"), by simp, rfl⟩,
    C7_raw_checks_array_only ("[42]") _ rfl ⟨.num ("42"), by simp, rfl⟩⟩

/-! ### Claim C4, counterexample -/

/-- C4 fails as stated: `"```json\n[]"` begins with an opening fence and has
no closing fence, yet both normalizers parse the text after the fence and
succeed — there is no `Malformed("unterminated code fence")` outcome
anywhere in the code (hence none in the `NormOutcome` model). -/
theorem C4_counterexample :
    ticks.isPrefixOf (pyStrip (("```json\n[]").data)) = true ∧
    hasSeq ticks ((pyStrip (("```json\n[]").data)).drop 3) = false ∧
    normalize_raw ("```json\n[]") = .valid (.arr []) ∧
    normalize_verse ("```json\n[]") = .valid (.arr []) :=
  ⟨rfl, rfl, rfl, rfl⟩

/-! ### Fence-splitting lemmas -/

theorem isPrefixOf_append (sep t : List Char) : sep.isPrefixOf (sep ++ t) = true := by
  induction sep with
  | nil => simp [List.isPrefixOf]
  | cons a as ih => simp [List.isPrefixOf, ih]

theorem eq_append_of_isPrefixOf {sep s : List Char} (h : sep.isPrefixOf s = true) :
    ∃ t, s = sep ++ t := by
  induction sep generalizing s with
  | nil => exact ⟨s, rfl⟩
  | cons a as ih =>
    cases s with
    | nil => simp [List.isPrefixOf] at h
    | cons b bs =>
      simp only [List.isPrefixOf, Bool.and_eq_true, beq_iff_eq] at h
      obtain ⟨h1, h2⟩ := h
      obtain ⟨t, ht⟩ := ih h2
      exact ⟨t, by rw [h1, ht]; rfl⟩

theorem isPrefixOf_iff_exists (sep s : List Char) :
    sep.isPrefixOf s = true ↔ ∃ t, s = sep ++ t := by
  constructor
  · exact eq_append_of_isPrefixOf
  · rintro ⟨t, rfl⟩
    exact isPrefixOf_append sep t

theorem hasSeq_cons (sep : List Char) (c : Char) (t : List Char) :
    hasSeq sep (c :: t) = (sep.isPrefixOf (c :: t) || hasSeq sep t) := by
  unfold hasSeq
  rw [findSplit]
  by_cases hp : sep.isPrefixOf (c :: t) = true
  · rw [if_pos hp, hp]
    simp
  · rw [if_neg hp]
    rw [show sep.isPrefixOf (c :: t) = false from Bool.eq_false_iff.mpr hp]
    cases hfs : findSplit sep t with
    | none => simp
    | some ab => simp

theorem findSplit_at_head (sep s : List Char) (hne : sep ≠ [])
    (h : sep.isPrefixOf s = true) :
    findSplit sep s = some ([], s.drop sep.length) := by
  cases s with
  | nil =>
    obtain ⟨t, ht⟩ := eq_append_of_isPrefixOf h
    cases sep with
    | nil => exact absurd rfl hne
    | cons a as => simp at ht
  | cons c t =>
    unfold findSplit
    rw [if_pos h]

theorem hasSeq_false_of_noTick (w : List Char) (hw : ∀ c ∈ w, c ≠ tickCh) :
    hasSeq ticks w = false := by
  induction w with
  | nil => rfl
  | cons c t ih =>
    rw [hasSeq_cons]
    have hpre : ticks.isPrefixOf (c :: t) = false := by
      by_contra hp
      simp only [Bool.not_eq_false] at hp
      obtain ⟨u, hu⟩ := eq_append_of_isPrefixOf hp
      rw [show ticks ++ u = tickCh :: tickCh :: tickCh :: u from rfl] at hu
      injection hu with h1 _
      exact hw c (by simp) h1
    rw [hpre, ih (fun c hc => hw c (by simp [hc]))]
    rfl

theorem hasSeq_false_append_right (v w : List Char) (hv : hasSeq ticks v = false)
    (hw : ∀ c ∈ w, c ≠ tickCh) : hasSeq ticks (v ++ w) = false := by
  induction v with
  | nil => simpa using hasSeq_false_of_noTick w hw
  | cons c v2 ih =>
    rw [List.cons_append, hasSeq_cons]
    have hv2 : hasSeq ticks v2 = false := by
      rw [hasSeq_cons] at hv
      exact (Bool.or_eq_false_iff.mp hv).2
    have hvpre : ticks.isPrefixOf (c :: v2) = false := by
      rw [hasSeq_cons] at hv
      exact (Bool.or_eq_false_iff.mp hv).1
    have hpre : ticks.isPrefixOf (c :: (v2 ++ w)) = false := by
      by_contra hp
      simp only [Bool.not_eq_false] at hp
      obtain ⟨u, hu⟩ := eq_append_of_isPrefixOf hp
      rw [show ticks ++ u = tickCh :: tickCh :: tickCh :: u from rfl] at hu
      injection hu with h1 hu
      cases v2 with
      | nil =>
        simp only [List.nil_append] at hu
        have : tickCh ∈ w := by rw [hu]; simp
        exact hw tickCh this rfl
      | cons d v3 =>
        rw [List.cons_append] at hu
        injection hu with h2 hu
        cases v3 with
        | nil =>
          simp only [List.nil_append] at hu
          have : tickCh ∈ w := by rw [hu]; simp
          exact hw tickCh this rfl
        | cons e v4 =>
          rw [List.cons_append] at hu
          injection hu with h3 _
          have : ticks.isPrefixOf (c :: d :: e :: v4) = true := by
            rw [h1, h2, h3]
            exact isPrefixOf_append ticks v4
          rw [this] at hvpre
          exact Bool.noConfusion hvpre
    rw [hpre, ih hv2]
    rfl

theorem hasSeq_false_append_left (u v : List Char) (hu : ∀ c ∈ u, c ≠ tickCh)
    (hv : hasSeq ticks v = false) : hasSeq ticks (u ++ v) = false := by
  induction u with
  | nil => simpa using hv
  | cons c u2 ih =>
    rw [List.cons_append, hasSeq_cons]
    have hpre : ticks.isPrefixOf (c :: (u2 ++ v)) = false := by
      by_contra hp
      simp only [Bool.not_eq_false] at hp
      obtain ⟨t, ht⟩ := eq_append_of_isPrefixOf hp
      rw [show ticks ++ t = tickCh :: tickCh :: tickCh :: t from rfl] at ht
      injection ht with h1 _
      exact hu c (by simp) h1
    rw [hpre, ih (fun c hc => hu c (by simp [hc]))]
    rfl

/-- Locating the first fence when the prefix `a` is fence-free and does not
end in a backtick. -/
theorem findSplit_boundary (a b : List Char) (hne : hasSeq ticks a = false)
    (hlast : ∀ c t, a.reverse = c :: t → c ≠ tickCh) :
    findSplit ticks (a ++ (ticks ++ b)) = some (a, b) := by
  induction a with
  | nil =>
    rw [List.nil_append,
      findSplit_at_head ticks (ticks ++ b) (by decide) (isPrefixOf_append ticks b)]
    rw [show ticks.length = 3 from rfl, show (ticks ++ b).drop 3 = b from List.drop_left' rfl]
  | cons c a2 ih =>
    rw [List.cons_append]
    have ha2 : hasSeq ticks a2 = false := by
      rw [hasSeq_cons] at hne
      exact (Bool.or_eq_false_iff.mp hne).2
    have hapre : ticks.isPrefixOf (c :: a2) = false := by
      rw [hasSeq_cons] at hne
      exact (Bool.or_eq_false_iff.mp hne).1
    have hpre : ticks.isPrefixOf (c :: (a2 ++ (ticks ++ b))) = false := by
      by_contra hp
      simp only [Bool.not_eq_false] at hp
      obtain ⟨t, ht⟩ := eq_append_of_isPrefixOf hp
      rw [show ticks ++ t = tickCh :: tickCh :: tickCh :: t from rfl] at ht
      injection ht with h1 ht
      cases a2 with
      | nil =>
        have : ([] : List Char).reverse ++ [c] = [c] := by simp
        exact hlast c [] (by simp) h1
      | cons d a3 =>
        rw [List.cons_append] at ht
        injection ht with h2 ht
        cases a3 with
        | nil =>
          have : (c :: [d]).reverse = d :: [c] := by simp
          exact hlast d [c] (by simpa using this) h2
        | cons e a4 =>
          rw [List.cons_append] at ht
          injection ht with h3 _
          have : ticks.isPrefixOf (c :: d :: e :: a4) = true := by
            rw [h1, h2, h3]
            exact isPrefixOf_append ticks a4
          rw [this] at hapre
          exact Bool.noConfusion hapre
    have hlast2 : ∀ c2 t, a2.reverse = c2 :: t → c2 ≠ tickCh := by
      intro c2 t hrev
      have : (c :: a2).reverse = c2 :: (t ++ [c]) := by
        rw [List.reverse_cons, hrev]
        rfl
      exact hlast c2 (t ++ [c]) this
    unfold findSplit
    rw [if_neg (by simp [hpre])]
    rw [ih ha2 hlast2]

/-! ### `stripFences` characterizations -/

theorem stripFences_not_fenced (s : List Char)
    (h : ticks.isPrefixOf (pyStrip s) = false) :
    stripFences s = pyStrip s := by
  simp only [stripFences]
  rw [if_neg (by simp [h])]
  exact pyStrip_idem s

theorem pySplit3_one (sep s a r : List Char) (h1 : findSplit sep s = some (a, r))
    (h2 : findSplit sep r = none) : pySplit3 sep s = [a, r] := by
  unfold pySplit3
  rw [h1]
  show (match findSplit sep r with
    | none => [a, r]
    | some (b, r2) => [a, b, r2]) = [a, r]
  rw [h2]

theorem pySplit3_two (sep s a r b r2 : List Char) (h1 : findSplit sep s = some (a, r))
    (h2 : findSplit sep r = some (b, r2)) : pySplit3 sep s = [a, b, r2] := by
  unfold pySplit3
  rw [h1]
  show (match findSplit sep r with
    | none => [a, r]
    | some (b, r2) => [a, b, r2]) = [a, b, r2]
  rw [h2]

theorem stripFences_fenced_unterminated (s : List Char)
    (h1 : ticks.isPrefixOf (pyStrip s) = true)
    (h2 : findSplit ticks ((pyStrip s).drop 3) = none) :
    stripFences s = pyStrip (dropJsonTag ((pyStrip s).drop 3)) := by
  obtain ⟨rest, hrest⟩ := eq_append_of_isPrefixOf h1
  have hdrop : (pyStrip s).drop 3 = rest := by
    rw [hrest]
    exact List.drop_left' rfl
  rw [hdrop] at h2
  have hfs1 : findSplit ticks (pyStrip s) = some ([], rest) := by
    rw [findSplit_at_head ticks (pyStrip s) (by decide) h1,
      show ticks.length = 3 from rfl, hdrop]
  simp only [stripFences]
  rw [if_pos h1, pySplit3_one ticks (pyStrip s) [] rest hfs1 h2, hdrop]

theorem stripFences_fenced_split (s a b : List Char)
    (h1 : ticks.isPrefixOf (pyStrip s) = true)
    (h2 : findSplit ticks ((pyStrip s).drop 3) = some (a, b)) :
    stripFences s = pyStrip (dropJsonTag a) := by
  obtain ⟨rest, hrest⟩ := eq_append_of_isPrefixOf h1
  have hdrop : (pyStrip s).drop 3 = rest := by
    rw [hrest]
    exact List.drop_left' rfl
  rw [hdrop] at h2
  have hfs1 : findSplit ticks (pyStrip s) = some ([], rest) := by
    rw [findSplit_at_head ticks (pyStrip s) (by decide) h1,
      show ticks.length = 3 from rfl, hdrop]
  simp only [stripFences]
  rw [if_pos h1, pySplit3_two ticks (pyStrip s) [] rest a b hfs1 h2]

/-! ### Claim C4, amended theorem -/

/-- C4 (amended): when the (stripped) text begins with an opening fence and
contains no closing fence, both endpoints take the whole text after the
opening fence, strip an optional leading `json` tag, re-trim, and parse
that remainder — failing only as `Malformed("invalid JSON")` when the
remainder is not JSON, never with an "unterminated code fence" error (no
such outcome exists in the code). -/
theorem C4_unterminated_fence_parses_remainder (s : String)
    (h1 : ticks.isPrefixOf (pyStrip s.data) = true)
    (h2 : findSplit ticks ((pyStrip s.data).drop 3) = none) :
    stripFences s.data = pyStrip (dropJsonTag ((pyStrip s.data).drop 3)) ∧
    normalize_raw s =
      (match json_loads (pyStrip (dropJsonTag ((pyStrip s.data).drop 3))) with
       | some (.arr xs) => NormOutcome.valid (.arr xs)
       | some _ => NormOutcome.notArray
       | none =>
         NormOutcome.invalidJson
           (String.mk ((pyStrip (dropJsonTag ((pyStrip s.data).drop 3))).take 300))) := by
  have hsf := stripFences_fenced_unterminated s.data h1 h2
  refine ⟨hsf, ?_⟩
  simp only [normalize_raw, hsf]

/-- C4 witness at the unterminated input `"```json\n[]"`. -/
theorem C4_unterminated_fence_parses_remainder_witness :
    (ticks.isPrefixOf (pyStrip (("```json\n[]").data)) = true ∧
      findSplit ticks ((pyStrip (("```json\n[]").data)).drop 3) = none) ∧
    (stripFences (("```json\n[]").data) =
        pyStrip (dropJsonTag ((pyStrip (("```json\n[]").data)).drop 3)) ∧
      normalize_raw ("```json\n[]") =
        (match json_loads (pyStrip (dropJsonTag ((pyStrip (("```json\n[]").data)).drop 3))) with
         | some (.arr xs) => NormOutcome.valid (.arr xs)
         | some _ => NormOutcome.notArray
         | none =>
           NormOutcome.invalidJson
             (String.mk
               ((pyStrip (dropJsonTag ((pyStrip (("```json\n[]").data)).drop 3))).take 300)))) :=
  ⟨⟨rfl, rfl⟩, C4_unterminated_fence_parses_remainder ("```json\n[]") rfl rfl⟩

/-! ### `json_loads` top-level array inversion -/

theorem parseVal_arr_head (f : Nat) (s : List Char) (l : List Json) (r : List Char)
    (h : parseVal f s = some (.arr l, r)) : ∃ t, s = '[' :: t := by
  cases f with
  | zero => simp [parseVal] at h
  | succ f =>
    cases s with
    | nil => simp [parseVal] at h
    | cons c t =>
      by_cases hC : c = '['
      · exact ⟨t, by rw [hC]⟩
      · exfalso
        simp only [parseVal] at h
        rw [if_neg hC] at h
        repeat' split at h
        all_goals simp_all

theorem json_loads_arr_head (s : List Char) (l : List Json)
    (h : json_loads s = some (.arr l)) : ∃ t, s.dropWhile jsonWsB = '[' :: t := by
  unfold json_loads at h
  cases hp : parseVal (s.length + 1) (skipWs s) with
  | none => rw [hp] at h; exact Option.noConfusion h
  | some vr =>
    obtain ⟨v, r⟩ := vr
    rw [hp] at h
    have h2 : (if skipWs r = [] then some v else none) = some (Json.arr l) := h
    by_cases hr : skipWs r = []
    · rw [if_pos hr] at h2
      have hv : v = .arr l := Option.some.inj h2
      rw [hv] at hp
      obtain ⟨t, ht⟩ := parseVal_arr_head _ _ _ _ hp
      exact ⟨t, ht⟩
    · rw [if_neg hr] at h2
      exact Option.noConfusion h2

/-- An input that `json.loads` reads as an array starts, after stripping,
with the opening bracket. -/
theorem pyStrip_head_of_json_arr (s : List Char) (l : List Json)
    (h : json_loads s = some (.arr l)) : ∃ r, pyStrip s = '[' :: r := by
  obtain ⟨t, ht⟩ := json_loads_arr_head s l h
  have hsplit : s = s.takeWhile jsonWsB ++ ('[' :: t) := by
    conv_lhs => rw [← List.takeWhile_append_dropWhile jsonWsB s]
    rw [ht]
  rw [hsplit]
  exact pyStrip_decomp (s.takeWhile jsonWsB) t '['
    (fun a ha => jsonWsB_imp_wsB (List.mem_takeWhile_imp ha)) (by decide)

/-! ### Claim C9 -/

/-- The spec's `normalize_wrap`: wrap an output text in a ```json fence. -/
def wrapFence (x : String) : String := "```json\n" ++ x ++ "\n```"

/-- C9 fails as stated: `x = '["```"]'` is a valid JSON array text, but
`split('```', 2)` on the wrapped text cuts at the backticks inside the
string literal, so the wrapped text fails JSON parsing while the bare text
succeeds. -/
theorem C9_counterexample :
    json_loads (("[\x22```\x22]").data) = some (.arr [.str ("```")]) ∧
    normalize_raw ("[\x22```\x22]") = .valid (.arr [.str ("```")]) ∧
    normalize_raw (wrapFence ("[\x22```\x22]")) = .invalidJson ("[\x22") ∧
    normalize_raw (wrapFence ("[\x22```\x22]")) ≠ normalize_raw ("[\x22```\x22]") := by
  refine ⟨rfl, rfl, rfl, ?_⟩
  intro heq
  rw [show normalize_raw (wrapFence ("[\x22```\x22]")) = .invalidJson ("[\x22") from rfl,
    show normalize_raw ("[\x22```\x22]") = .valid (.arr [.str ("```")]) from rfl] at heq
  exact NormOutcome.noConfusion heq

/-- C9 (amended): fence-wrap idempotence holds for every valid JSON array
text containing no fence marker (three consecutive backticks): wrapping it
in a ```json fence changes neither endpoint's normalization outcome. -/
theorem C9_fence_wrap_idempotent (x : String) (l : List Json)
    (hjson : json_loads x.data = some (.arr l))
    (hfence : hasSeq ticks x.data = false) :
    normalize_verse (wrapFence x) = normalize_verse x ∧
    normalize_raw (wrapFence x) = normalize_raw x := by
  have hsf : stripFences (wrapFence x).data = stripFences x.data := by
    obtain ⟨r0, hx⟩ := pyStrip_head_of_json_arr x.data l hjson
    have hxnf : ticks.isPrefixOf (pyStrip x.data) = false := by
      rw [hx]
      by_contra hp
      simp only [Bool.not_eq_false] at hp
      obtain ⟨t, ht⟩ := eq_append_of_isPrefixOf hp
      rw [show ticks ++ t = tickCh :: tickCh :: tickCh :: t from rfl] at ht
      injection ht with h1 _
      exact absurd h1 (by decide)
    have hxs : stripFences x.data = pyStrip x.data := stripFences_not_fenced x.data hxnf
    have hdata : (wrapFence x).data =
        ticks ++ ((jsonTag ++ ['\n']) ++ (x.data ++ ('\n' :: ticks))) := by
      show (("```json\n" ++ x ++ "\n```") : String).data = _
      rw [String.data_append, String.data_append,
        show ("```json\n").data = ticks ++ (jsonTag ++ ['\n']) from by decide,
        show ("\n```").data = '\n' :: ticks from by decide]
      simp [List.append_assoc]
    have hnsW : pyStrip (wrapFence x).data = (wrapFence x).data := by
      apply pyStrip_noop
      · intro c t hct
        rw [hdata, show ticks ++ ((jsonTag ++ ['\n']) ++ (x.data ++ ('\n' :: ticks))) =
          tickCh :: (tickCh :: tickCh :: ((jsonTag ++ ['\n']) ++ (x.data ++ ('\n' :: ticks))))
          from rfl] at hct
        injection hct with h1 _
        rw [← h1]
        decide
      · intro c t hct
        have hshape : (wrapFence x).data =
            (ticks ++ ((jsonTag ++ ['\n']) ++ (x.data ++ ('\n' :: [tickCh, tickCh])))) ++
              [tickCh] := by
          rw [hdata]
          simp [ticks, List.append_assoc]
        rw [hshape, show ((ticks ++ ((jsonTag ++ ['\n']) ++
            (x.data ++ ('\n' :: [tickCh, tickCh])))) ++ [tickCh]).reverse =
            tickCh :: (ticks ++ ((jsonTag ++ ['\n']) ++
              (x.data ++ ('\n' :: [tickCh, tickCh])))).reverse from by simp] at hct
        injection hct with h1 _
        rw [← h1]
        decide
    have hWpre : ticks.isPrefixOf (pyStrip (wrapFence x).data) = true := by
      rw [hnsW, hdata]
      exact isPrefixOf_append ticks _
    have hWdrop : (pyStrip (wrapFence x).data).drop 3 =
        (jsonTag ++ ['\n']) ++ (x.data ++ ('\n' :: ticks)) := by
      rw [hnsW, hdata]
      exact List.drop_left' rfl
    have hrest_eq : (jsonTag ++ ['\n']) ++ (x.data ++ ('\n' :: ticks)) =
        ((jsonTag ++ ['\n']) ++ (x.data ++ ['\n'])) ++ (ticks ++ []) := by
      simp [List.append_assoc]
    have hnofence_a : hasSeq ticks ((jsonTag ++ ['\n']) ++ (x.data ++ ['\n'])) = false := by
      apply hasSeq_false_append_left
      · decide
      · exact hasSeq_false_append_right x.data ['\n'] hfence (by decide)
    have hlast_a : ∀ c t, ((jsonTag ++ ['\n']) ++ (x.data ++ ['\n'])).reverse = c :: t →
        c ≠ tickCh := by
      intro c t hct
      rw [show (jsonTag ++ ['\n']) ++ (x.data ++ ['\n']) =
          ((jsonTag ++ ['\n']) ++ x.data) ++ ['\n'] from by simp [List.append_assoc],
        show (((jsonTag ++ ['\n']) ++ x.data) ++ ['\n']).reverse =
          '\n' :: ((jsonTag ++ ['\n']) ++ x.data).reverse from by simp] at hct
      injection hct with h1 _
      rw [← h1]
      decide
    have hWsplit : findSplit ticks ((pyStrip (wrapFence x).data).drop 3) =
        some ((jsonTag ++ ['\n']) ++ (x.data ++ ['\n']), []) := by
      rw [hWdrop, hrest_eq]
      exact findSplit_boundary _ [] hnofence_a hlast_a
    have hW : stripFences (wrapFence x).data =
        pyStrip (dropJsonTag ((jsonTag ++ ['\n']) ++ (x.data ++ ['\n']))) :=
      stripFences_fenced_split _ _ _ hWpre hWsplit
    have htag : dropJsonTag ((jsonTag ++ ['\n']) ++ (x.data ++ ['\n'])) =
        '\n' :: (x.data ++ ['\n']) := by
      unfold dropJsonTag
      rw [show (jsonTag ++ ['\n']) ++ (x.data ++ ['\n']) =
          jsonTag ++ (['\n'] ++ (x.data ++ ['\n'])) from by simp [List.append_assoc],
        if_pos (isPrefixOf_append jsonTag _)]
      rw [show (jsonTag ++ (['\n'] ++ (x.data ++ ['\n']))).drop 4 =
          ['\n'] ++ (x.data ++ ['\n']) from List.drop_left' rfl]
      rfl
    have hfinal : pyStrip ('\n' :: (x.data ++ ['\n'])) = pyStrip x.data := by
      rw [show '\n' :: (x.data ++ ['\n']) = ['\n'] ++ x.data ++ ['\n'] from by simp]
      exact pyStrip_ws_wrap ['\n'] x.data ['\n'] (by decide) (by decide)
    rw [hW, htag, hfinal, hxs]
  constructor
  · simp only [normalize_verse, hsf]
  · simp only [normalize_raw, hsf]

/-- C9 witness at the fence-free array text `"[1, 2]"`. -/
theorem C9_fence_wrap_idempotent_witness :
    (json_loads (("[1, 2]").data) = some (.arr [.num ("1"), .num ("2")]) ∧
      hasSeq ticks (("[1, 2]").data) = false) ∧
    (normalize_verse (wrapFence ("[1, 2]")) = normalize_verse ("[1, 2]") ∧
      normalize_raw (wrapFence ("[1, 2]")) = normalize_raw ("[1, 2]")) :=
  ⟨⟨rfl, rfl⟩, C9_fence_wrap_idempotent ("[1, 2]") [.num ("1"), .num ("2")] rfl rfl⟩

/-! ### Claim C8 -/

/-- The text built from the tier-3 extraction at line 151:
`' '.join(text_parts)`. -/
def tier3Text (j : Json) : String := String.intercalate (" ") (extract_text j)

/-- The claim's phrasing of the result: plain concatenation of the collected
strings in traversal order. -/
def specConcatText (j : Json) : String := String.join (extract_text j)

/-- A string value occurs (nested anywhere) in a JSON body. -/
inductive StringIn : String → Json → Prop
  | here (s : String) : StringIn s (.str s)
  | inArr {s : String} {x : Json} {xs : List Json} :
      StringIn s x → x ∈ xs → StringIn s (.arr xs)
  | inObj {s : String} {k : String} {v : Json} {fs : List (String × Json)} :
      StringIn s v → (k, v) ∈ fs → StringIn s (.obj fs)

theorem mem_extractElems_iff (xs : List Json) (s : String) :
    s ∈ extractElems xs ↔ ∃ x ∈ xs, s ∈ extract_text x := by
  induction xs with
  | nil => simp [extractElems]
  | cons x xs ih =>
    rw [show extractElems (x :: xs) = extract_text x ++ extractElems xs from rfl,
      List.mem_append, ih]
    constructor
    · rintro (h | ⟨y, hy, hsy⟩)
      · exact ⟨x, by simp, h⟩
      · exact ⟨y, by simp [hy], hsy⟩
    · rintro ⟨y, hy, hsy⟩
      rcases List.mem_cons.mp hy with rfl | hy2
      · exact Or.inl hsy
      · exact Or.inr ⟨y, hy2, hsy⟩

theorem mem_extractVals_iff (fs : List (String × Json)) (s : String) :
    s ∈ extractVals fs ↔ ∃ p ∈ fs, s ∈ extract_text p.2 := by
  induction fs with
  | nil => simp [extractVals]
  | cons p fs ih =>
    obtain ⟨k, v⟩ := p
    rw [show extractVals ((k, v) :: fs) = extract_text v ++ extractVals fs from rfl,
      List.mem_append, ih]
    constructor
    · rintro (h | ⟨q, hq, hsq⟩)
      · exact ⟨(k, v), by simp, h⟩
      · exact ⟨q, by simp [hq], hsq⟩
    · rintro ⟨q, hq, hsq⟩
      rcases List.mem_cons.mp hq with rfl | hq2
      · exact Or.inl hsq
      · exact Or.inr ⟨q, hq2, hsq⟩

theorem stringIn_of_mem :
    ∀ (n : Nat) (j : Json), sizeOf j ≤ n → ∀ s, s ∈ extract_text j → StringIn s j := by
  intro n
  induction n with
  | zero =>
    intro j hsz
    exfalso
    cases j <;> simp at hsz
  | succ n ih =>
    intro j hsz s hmem
    cases j with
    | str t =>
      rw [show extract_text (.str t) = [t] from rfl] at hmem
      rw [List.mem_singleton.mp hmem]
      exact StringIn.here t
    | num t => simp [extract_text] at hmem
    | bool b => simp [extract_text] at hmem
    | null => simp [extract_text] at hmem
    | arr xs =>
      rw [show extract_text (.arr xs) = extractElems xs from rfl] at hmem
      obtain ⟨x, hx, hsx⟩ := (mem_extractElems_iff xs s).mp hmem
      have hszx : sizeOf x ≤ n := by
        have h1 : sizeOf x < sizeOf xs := List.sizeOf_lt_of_mem hx
        have h2 : sizeOf (Json.arr xs) = 1 + sizeOf xs := by simp
        omega
      exact StringIn.inArr (ih x hszx s hsx) hx
    | obj fs =>
      rw [show extract_text (.obj fs) = extractVals fs from rfl] at hmem
      obtain ⟨p, hp, hsp⟩ := (mem_extractVals_iff fs s).mp hmem
      obtain ⟨k, v⟩ := p
      have hszv : sizeOf v ≤ n := by
        have h1 : sizeOf (k, v) < sizeOf fs := List.sizeOf_lt_of_mem hp
        have h2 : sizeOf (Json.obj fs) = 1 + sizeOf fs := by simp
        have h3 : sizeOf (k, v) = 1 + sizeOf k + sizeOf v := by simp
        omega
      exact StringIn.inObj (ih v hszv s hsp) hp

/-- C8 (amended): the extraction collects exactly the string values nested
anywhere in the body (object entries and list elements all traversed, in
pre-order by construction), and the resulting text joins them with single
spaces — `' '.join`, not plain concatenation. -/
theorem C8_extract_collects_all_strings (j : Json) (s : String) :
    (StringIn s j ↔ s ∈ extract_text j) ∧
    tier3Text j = String.intercalate (" ") (extract_text j) := by
  refine ⟨⟨?_, ?_⟩, rfl⟩
  · intro h
    induction h with
    | here => simp [extract_text]
    | inArr hin hmem ih =>
      rw [show extract_text (.arr _) = extractElems _ from rfl]
      exact (mem_extractElems_iff _ _).mpr ⟨_, hmem, ih⟩
    | inObj hin hmem ih =>
      rw [show extract_text (.obj _) = extractVals _ from rfl]
      exact (mem_extractVals_iff _ _).mpr ⟨_, hmem, ih⟩
  · intro h
    exact stringIn_of_mem (sizeOf j) j le_rfl s h

/-- C8 witness: recover a nested string occurrence through the theorem. -/
theorem C8_extract_collects_all_strings_witness :
    StringIn ("x") (Json.obj [("a", .str ("x")), ("b", .arr [.str ("y")])]) :=
  (C8_extract_collects_all_strings (Json.obj [("a", .str ("x")), ("b", .arr [.str ("y")])])
    ("x")).1.mpr (by simp [extract_text, extractVals, extractElems])

/-- C8 fails as stated: on `{"a": "x", "b": "y"}` the code produces the
space-joined `"x y"`, not the concatenation `"xy"`. -/
theorem C8_counterexample :
    extract_text (Json.obj [("a", .str ("x")), ("b", .str ("y"))]) = ["x", "y"] ∧
    tier3Text (Json.obj [("a", .str ("x")), ("b", .str ("y"))]) = "x y" ∧
    specConcatText (Json.obj [("a", .str ("x")), ("b", .str ("y"))]) = "xy" ∧
    tier3Text (Json.obj [("a", .str ("x")), ("b", .str ("y"))]) ≠
      specConcatText (Json.obj [("a", .str ("x")), ("b", .str ("y"))]) :=
  ⟨rfl, rfl, rfl, by decide⟩

/-! ### Claim C6 -/

/-- C6 fails as stated: with tier 2 failing and tier 3 disabled, the 404
payload for `"Mark 99:1"` carries the demo-verse keys but names no
provider — neither `getbible` (tier 2) nor `api.bible` (tier 3) occurs in
it — so the outcome does not carry the list of providers attempted. -/
theorem C6_counterexample :
    fetchGreekText envFail ("Mark 99:1") =
      (.notFound (notFoundDetail ("Mark 99:1")), [.tier2]) ∧
    hasSeq (("getbible").data) ((notFoundDetail ("Mark 99:1")).data) = false ∧
    hasSeq (("api.bible").data) ((notFoundDetail ("Mark 99:1")).data) = false :=
  ⟨rfl, rfl, rfl⟩

/-- C6 (amended): when tier 3 is disabled and tier 2 raises, resolution of a
parseable reference absent from the local table returns the 404 `NotFound`
whose detail carries the echoed reference and the set of local-table
reference strings (but not the providers attempted, which are tier 2 only);
the tier-2 error value `e` is absorbed — the outcome does not depend on
it. -/
theorem C6_tier2_failure_absorbed (env : RemoteEnv) (ref : String) (r : PyRef) (e : String)
    (h3 : env.bibleApiKey = "" ∨ env.bibleId = "")
    (hnot : List.lookup (String.mk (pyStrip ref.data)) verse_database = none)
    (hp : parse_reference ref = some r)
    (h2 : env.tier2Resp (r.book ++ "+" ++ r.chapter ++ ":" ++ r.verse_start) =
      .error e) :
    fetchGreekText env ref = (.notFound (notFoundDetail ref), [.tier2]) := by
  have hgate : ¬(env.bibleApiKey ≠ "" ∧ env.bibleId ≠ "") := by
    rcases h3 with h | h
    · intro hand; exact hand.1 h
    · intro hand; exact hand.2 h
  simp only [fetchGreekText, hnot, hp, afterParse, tier2Attempt, h2]
  rw [if_neg hgate]

/-- C6 witness at `"Mark 99:1"` under the failing environment. -/
theorem C6_tier2_failure_absorbed_witness :
    (envFail.bibleApiKey = "" ∨ envFail.bibleId = "") ∧
    List.lookup (String.mk (pyStrip (("Mark 99:1").data))) verse_database = none ∧
    parse_reference ("Mark 99:1") = some ⟨"Mark", "99", "1", "1"⟩ ∧
    fetchGreekText envFail ("Mark 99:1") =
      (.notFound (notFoundDetail ("Mark 99:1")), [.tier2]) :=
  ⟨Or.inl rfl, rfl, rfl,
    C6_tier2_failure_absorbed envFail ("Mark 99:1") ⟨"Mark", "99", "1", "1"⟩ ("boom")
      (Or.inl rfl) rfl rfl rfl⟩

/-! ### Claim C10 -/

/-- The two provider request paths built from a reference string (lines 106
and 133): tier-2 `book+chapter:verseStart` and tier-3
`book%20chapter:verseStart`. -/
def requestPaths (s : String) : Option (String × String) :=
  match parse_reference s with
  | some p => some (p.book ++ "+" ++ p.chapter ++ ":" ++ p.verse_start,
      p.book ++ "%20" ++ p.chapter ++ ":" ++ p.verse_start)
  | none => none

/-- Outcome equality up to the reference echoed in the `NotFound` detail. -/
def sameUpToEcho (o1 o2 : FetchOutcome) (r1 r2 : String) : Prop :=
  (∃ t, o1 = .found t ∧ o2 = .found t) ∨
  (o1 = .notFound (notFoundDetail r1) ∧ o2 = .notFound (notFoundDetail r2))

/-- Resolution after parsing depends only on the book, chapter and start
verse of the parsed reference — never on `verse_end` — plus the raw
reference echoed in the 404 detail. -/
theorem afterParse_congr (env : RemoteEnv) (p1 p2 : PyRef) (s1 s2 : String)
    (hb : p1.book = p2.book) (hc : p1.chapter = p2.chapter)
    (hv : p1.verse_start = p2.verse_start) :
    (afterParse env p1 s1).2 = (afterParse env p2 s2).2 ∧
    sameUpToEcho (afterParse env p1 s1).1 (afterParse env p2 s2).1 s1 s2 := by
  obtain ⟨b1, c1, v1, e1⟩ := p1
  obtain ⟨b2, c2, v2, e2⟩ := p2
  simp only at hb hc hv
  subst hb; subst hc; subst hv
  unfold afterParse
  simp only
  cases h2 : tier2Attempt env (b1 ++ "+" ++ c1 ++ ":" ++ v1) with
  | some t => exact ⟨rfl, Or.inl ⟨t, rfl, rfl⟩⟩
  | none =>
    by_cases hgate : env.bibleApiKey ≠ "" ∧ env.bibleId ≠ ""
    · rw [if_pos hgate, if_pos hgate]
      cases h3 : tier3Attempt env (b1 ++ "%20" ++ c1 ++ ":" ++ v1) with
      | some t => exact ⟨rfl, Or.inl ⟨t, rfl, rfl⟩⟩
      | none => exact ⟨rfl, Or.inr ⟨rfl, rfl⟩⟩
    · rw [if_neg hgate, if_neg hgate]
      exact ⟨rfl, Or.inr ⟨rfl, rfl⟩⟩

theorem refString_head (dig ws1 letters ws2 chap v : List Char) (e : Option (List Char))
    (hg : refGrammar dig ws1 letters ws2 chap v e) :
    ∃ d t2, refString dig ws1 letters ws2 chap v e = d :: t2 ∧ wsB d = false := by
  obtain ⟨hdig, hlne, hlet, _, _, _, _, _, _, _⟩ := hg
  rcases hdig with ⟨hd1, hw1⟩ | ⟨hlen, hddig, _⟩
  · subst hd1; subst hw1
    cases letters with
    | nil => exact absurd rfl hlne
    | cons lc lt =>
      refine ⟨lc, lt ++ (ws2 ++ (chap ++ (':' :: (v ++ rangeSuffix e)))), ?_, ?_⟩
      · simp [refString]
      · exact alphaB_not_wsB (hlet lc (by simp))
  · obtain ⟨d, hd⟩ : ∃ d, dig = [d] := by
      cases dig with
      | nil => simp at hlen
      | cons a b =>
        cases b with
        | nil => exact ⟨a, rfl⟩
        | cons x y => simp at hlen
    subst hd
    refine ⟨d, ws1 ++ (letters ++ (ws2 ++ (chap ++ (':' :: (v ++ rangeSuffix e))))), ?_, ?_⟩
    · simp [refString]
    · exact digitB_not_wsB (hddig d (by simp))

theorem refString_last (dig ws1 letters ws2 chap v : List Char) (e : Option (List Char))
    (hg : refGrammar dig ws1 letters ws2 chap v e) :
    ∃ big d, refString dig ws1 letters ws2 chap v e = big ++ [d] ∧ digitB d = true := by
  obtain ⟨_, _, _, _, _, _, _, hvne, hv, he⟩ := hg
  cases e with
  | none =>
    rcases v.eq_nil_or_concat with rfl | ⟨v2, vl, hv2⟩
    · exact absurd rfl hvne
    · refine ⟨dig ++ (ws1 ++ (letters ++ (ws2 ++ (chap ++ (':' :: v2))))), vl, ?_, ?_⟩
      · simp [refString, rangeSuffix, hv2]
      · exact hv vl (by simp [hv2])
  | some ed =>
    obtain ⟨hedne, hed⟩ := he
    rcases ed.eq_nil_or_concat with rfl | ⟨ed2, dl, hed2⟩
    · exact absurd rfl hedne
    · refine ⟨dig ++ (ws1 ++ (letters ++ (ws2 ++ (chap ++ (':' :: (v ++ ('-' :: ed2))))))),
        dl, ?_, ?_⟩
      · simp [refString, rangeSuffix, hed2]
      · exact hed dl (by simp [hed2])

/-- Stripping is a no-op on an assembled reference string: it starts with a
digit or a letter and ends with a digit. -/
theorem refString_pyStrip (dig ws1 letters ws2 chap v : List Char) (e : Option (List Char))
    (hg : refGrammar dig ws1 letters ws2 chap v e) :
    pyStrip (refString dig ws1 letters ws2 chap v e) =
      refString dig ws1 letters ws2 chap v e := by
  apply pyStrip_noop
  · intro c t hct
    obtain ⟨d, t2, heq, hws⟩ := refString_head dig ws1 letters ws2 chap v e hg
    rw [heq] at hct
    injection hct with h1 _
    rw [← h1]
    exact hws
  · intro c t hct
    obtain ⟨big, d, heq, hdig⟩ := refString_last dig ws1 letters ws2 chap v e hg
    rw [heq, show (big ++ [d]).reverse = d :: big.reverse from by simp] at hct
    injection hct with h1 _
    rw [← h1]
    exact digitB_not_wsB hdig

/-- C10 (amended): two syntactically valid reference strings sharing every
grammar component except the presence/value of the `-endVerse` suffix, both
absent from the local table, produce identical provider request paths and
the same remote attempts; the outcomes agree whenever a provider succeeds,
and on total failure both are `NotFound` payloads differing only in the
echoed raw reference string. -/
theorem C10_range_suffix_independence (env : RemoteEnv)
    (dig ws1 letters ws2 chap v : List Char) (e1 e2 : Option (List Char))
    (hg1 : refGrammar dig ws1 letters ws2 chap v e1)
    (hg2 : refGrammar dig ws1 letters ws2 chap v e2)
    (hn1 : List.lookup
      (String.mk (pyStrip ((String.mk (refString dig ws1 letters ws2 chap v e1)).data)))
      verse_database = none)
    (hn2 : List.lookup
      (String.mk (pyStrip ((String.mk (refString dig ws1 letters ws2 chap v e2)).data)))
      verse_database = none) :
    requestPaths (String.mk (refString dig ws1 letters ws2 chap v e1)) =
      requestPaths (String.mk (refString dig ws1 letters ws2 chap v e2)) ∧
    (fetchGreekText env (String.mk (refString dig ws1 letters ws2 chap v e1))).2 =
      (fetchGreekText env (String.mk (refString dig ws1 letters ws2 chap v e2))).2 ∧
    sameUpToEcho
      (fetchGreekText env (String.mk (refString dig ws1 letters ws2 chap v e1))).1
      (fetchGreekText env (String.mk (refString dig ws1 letters ws2 chap v e2))).1
      (String.mk (refString dig ws1 letters ws2 chap v e1))
      (String.mk (refString dig ws1 letters ws2 chap v e2)) := by
  have hd1 : (String.mk (refString dig ws1 letters ws2 chap v e1)).data =
      refString dig ws1 letters ws2 chap v e1 := rfl
  have hd2 : (String.mk (refString dig ws1 letters ws2 chap v e2)).data =
      refString dig ws1 letters ws2 chap v e2 := rfl
  have hp1 : parse_reference (String.mk (refString dig ws1 letters ws2 chap v e1)) =
      some ⟨String.mk (pyStrip (dig ++ ws1 ++ letters)), String.mk chap,
        String.mk v, String.mk (e1.getD v)⟩ := by
    apply parse_reference_complete _ dig ws1 letters ws2 chap v e1 hg1
    rw [hd1]
    exact refString_pyStrip dig ws1 letters ws2 chap v e1 hg1
  have hp2 : parse_reference (String.mk (refString dig ws1 letters ws2 chap v e2)) =
      some ⟨String.mk (pyStrip (dig ++ ws1 ++ letters)), String.mk chap,
        String.mk v, String.mk (e2.getD v)⟩ := by
    apply parse_reference_complete _ dig ws1 letters ws2 chap v e2 hg2
    rw [hd2]
    exact refString_pyStrip dig ws1 letters ws2 chap v e2 hg2
  refine ⟨?_, ?_⟩
  · unfold requestPaths
    rw [hp1, hp2]
  · have hfetch1 : fetchGreekText env (String.mk (refString dig ws1 letters ws2 chap v e1)) =
        afterParse env ⟨String.mk (pyStrip (dig ++ ws1 ++ letters)), String.mk chap,
          String.mk v, String.mk (e1.getD v)⟩
          (String.mk (refString dig ws1 letters ws2 chap v e1)) := by
      simp only [fetchGreekText, hn1, hp1]
    have hfetch2 : fetchGreekText env (String.mk (refString dig ws1 letters ws2 chap v e2)) =
        afterParse env ⟨String.mk (pyStrip (dig ++ ws1 ++ letters)), String.mk chap,
          String.mk v, String.mk (e2.getD v)⟩
          (String.mk (refString dig ws1 letters ws2 chap v e2)) := by
      simp only [fetchGreekText, hn2, hp2]
    rw [hfetch1, hfetch2]
    exact afterParse_congr env _ _ _ _ rfl rfl rfl

/-- C10 fails as stated ("yields the same result"): with every provider
failing, `"John 9:9"` and `"John 9:9-10"` build the same request paths but
return different `NotFound` payloads, because the detail echoes the raw
reference including its range suffix. -/
theorem C10_counterexample :
    requestPaths ("John 9:9") = requestPaths ("John 9:9-10") ∧
    (fetchGreekText envFail ("John 9:9")).1 ≠ (fetchGreekText envFail ("John 9:9-10")).1 :=
  ⟨rfl, by decide⟩

/-- C10 witness at `"John 9:9"` / `"John 9:9-10"` under the failing
environment. -/
theorem C10_range_suffix_independence_witness :
    (List.lookup (String.mk (pyStrip (("John 9:9").data))) verse_database = none ∧
      List.lookup (String.mk (pyStrip (("John 9:9-10").data))) verse_database = none) ∧
    (requestPaths ("John 9:9") = requestPaths ("John 9:9-10") ∧
      (fetchGreekText envFail ("John 9:9")).2 =
        (fetchGreekText envFail ("John 9:9-10")).2 ∧
      sameUpToEcho (fetchGreekText envFail ("John 9:9")).1
        (fetchGreekText envFail ("John 9:9-10")).1 ("John 9:9") ("John 9:9-10")) :=
  ⟨⟨rfl, rfl⟩,
    C10_range_suffix_independence envFail [] [] (("John").data) ([' ']) (("9").data)
      (("9").data) none (some (("10").data)) (by decide) (by decide) rfl rfl⟩
